import Mathlib

/-!
Verification of the VSFS metadata journal (`journal.c`).

The disk image is modelled as an unbounded byte array `Img : Nat → Nat`
(byte address → byte value).  The C program accesses the image through
`fseek`/`fread`/`fwrite`; in this shallow embedding a read returns the
bytes at the given addresses and a write overwrites a contiguous range.
I/O never fails in the model (the program is run against a regular file,
where seeks and writes always succeed and writes past the end extend the
file).  All multi-byte fields are little-endian, matching the x86 layout
of the C structs, which contain no padding:

  journal_header : magic@0 (4), nbytes_used@4 (4); size 8
  rec_header     : type@0 (2), size@2 (2); size 4
  data_record    : hdr@0, block_no@4 (4), data@8 (4096); size 4104
  commit_record  : hdr@0; size 4
  dirent         : inode@0 (4), name@4 (28); size 32
  inode          : type@0 (2), links@2 (2), size@4 (4), direct@8 (32),
                   ctime@40 (4), mtime@44 (4), pad@48 (80); size 128

Seek positions are computed by the C program in `uint32_t` arithmetic,
so they are reduced modulo `2 ^ 32` exactly where the source does.
-/

namespace VsfsJournal

set_option maxRecDepth 200000
set_option maxHeartbeats 2000000

/-! ### Constants (journal.c, CONSTANTS section) -/

def BLOCK_SIZE : Nat := 4096
def TOTAL_BLOCKS : Nat := 85
def JOURNAL_BLOCKS : Nat := 16
def MAX_INODES : Nat := 64
def MAX_DIRENTS : Nat := 128
def INODES_PER_BLOCK : Nat := 32

def SUPERBLOCK_MAGIC : Nat := 0x56534653
def JOURNAL_MAGIC : Nat := 0x4A524E4C

def REC_DATA : Nat := 1
def REC_COMMIT : Nat := 2

def INODE_FREE : Nat := 0
def INODE_FILE : Nat := 1
def INODE_DIR : Nat := 2

/-- `2 ^ 32`, the modulus of the C program's `uint32_t` arithmetic. -/
def U32 : Nat := 4294967296

/-- `sizeof(struct journal_header)` -/
def szJH : Nat := 8
/-- `sizeof(struct data_record)` -/
def szDR : Nat := 4104
/-- `sizeof(struct commit_record)` -/
def szCR : Nat := 4
/-- Journal capacity in bytes: `JOURNAL_BLOCKS * BLOCK_SIZE`. -/
def JCAP : Nat := 65536
/-- Space reserved by `journal_create`:
`4 * sizeof(struct data_record) + sizeof(struct commit_record)`. -/
def NEEDED : Nat := 16420

/-! ### The disk image and raw byte access -/

/-- A disk image: byte address → byte value. -/
def Img : Type := Nat → Nat

/-- Overwrite `len` bytes starting at `pos` with the contents of `buf`
(`buf` is indexed relative to the start of the write).  This is the model
of one contiguous `fwrite`. -/
def writeBytes (img : Img) (pos len : Nat) (buf : Nat → Nat) : Img :=
  fun a => if pos ≤ a ∧ a < pos + len then buf (a - pos) else img a

/-- Decode a little-endian `uint16_t` at address `a`. -/
def le16 (f : Nat → Nat) (a : Nat) : Nat :=
  f a % 256 + 256 * (f (a + 1) % 256)

/-- Decode a little-endian `uint32_t` at address `a`. -/
def le32 (f : Nat → Nat) (a : Nat) : Nat :=
  f a % 256 + 256 * (f (a + 1) % 256) + 65536 * (f (a + 2) % 256)
    + 16777216 * (f (a + 3) % 256)

/-- Byte `k` of the little-endian encoding of `v`. -/
def leByte (v k : Nat) : Nat := v / 256 ^ k % 256

/-! ### Superblock (read once by `open_disk` into the global `sb`) -/

structure Superblock where
  magic : Nat
  block_size : Nat
  total_blocks : Nat
  inode_count : Nat
  journal_block : Nat
  inode_bitmap : Nat
  data_bitmap : Nat
  inode_start : Nat
  data_start : Nat
  deriving Repr, DecidableEq

/-- Decode the superblock from block 0 of the image. -/
def readSuperblock (img : Img) : Superblock :=
  { magic := le32 img 0
    block_size := le32 img 4
    total_blocks := le32 img 8
    inode_count := le32 img 12
    journal_block := le32 img 16
    inode_bitmap := le32 img 20
    data_bitmap := le32 img 24
    inode_start := le32 img 28
    data_start := le32 img 32 }

/-- `open_disk`: read the superblock and check its magic. -/
def open_disk (img : Img) : Option Superblock :=
  let sb := readSuperblock img
  if sb.magic = SUPERBLOCK_MAGIC then some sb else none

/-- File byte address of the start of block `bno`, as the C program
computes it (`block_no * BLOCK_SIZE` in `uint32_t`). -/
def blockAddr (bno : Nat) : Nat := bno * BLOCK_SIZE % U32

/-- `write_block`: overwrite one whole block. -/
def write_block (img : Img) (bno : Nat) (buf : Nat → Nat) : Img :=
  writeBytes img (blockAddr bno) BLOCK_SIZE buf

/-- Start address of the journal region (`sb.journal_block * BLOCK_SIZE`
in `uint32_t`). -/
def jstart (sb : Superblock) : Nat := blockAddr sb.journal_block

/-- `write_journal_bytes offset buf size`: one `fwrite` of `size` bytes at
file position `journal_start + offset` (`uint32_t` sum). -/
def write_journal_bytes (sb : Superblock) (img : Img) (offset size : Nat)
    (buf : Nat → Nat) : Img :=
  writeBytes img ((jstart sb + offset) % U32) size buf

/-! ### C strings

A filename passed on the command line is a NUL-free byte sequence, but the
model keeps full C-string semantics: `cstrlen` is the index of the first
zero byte (`strlen`), and `strcmp`-equality against a name buffer compares
exactly the bytes up to and including that terminator. -/

/-- `strlen`: number of bytes before the first zero byte. -/
def cstrlen : List Nat → Nat
  | [] => 0
  | b :: bs => if b = 0 then 0 else cstrlen bs + 1

/-- `strcmp(buf, fname) == 0` where `buf` starts at relative address `a`
of block buffer `blk`: the first `cstrlen fname` bytes agree and the byte
after them is the NUL terminator. -/
def nameEq (blk : Nat → Nat) (a : Nat) (fname : List Nat) : Bool :=
  ((List.range (cstrlen fname)).all fun k => blk (a + k) = fname.getD k 0)
    && blk (a + cstrlen fname) = 0

/-! ### Allocator scans (journal_create's loops / part_001's helpers) -/

/-- Loop body of the free-inode search: try indexes `i, i+1, ...`
(`n` indexes remaining). -/
def findFreeInodeAux (bm : Nat → Nat) : Nat → Nat → Option Nat
  | 0, _ => none
  | n + 1, i =>
    if Nat.testBit (bm (i / 8)) (i % 8) = false then some i
    else findFreeInodeAux bm n (i + 1)

/-- `for (i = 1; i < MAX_INODES; i++) if bitmap bit i clear: take i`
(inode 0 is reserved for the root directory). -/
def findFreeInode (bm : Nat → Nat) : Option Nat :=
  findFreeInodeAux bm 63 1

/-- Result of the directory-slot scan. -/
inductive FfdResult where
  | slot (s : Nat)
  | nameExists
  | full
  deriving Repr, DecidableEq

/-- Loop body of the directory scan: `n` slots remaining, current slot
index `i`, `acc` = lowest empty slot seen so far.  An occupied slot
(first name byte nonzero) matching `fname` fails immediately; otherwise
the first empty slot is remembered. -/
def ffdAux (blk : Nat → Nat) (fname : List Nat) :
    Nat → Nat → Option Nat → FfdResult
  | 0, _, none => .full
  | 0, _, some s => .slot s
  | n + 1, i, acc =>
    if blk (32 * i + 4) ≠ 0 then
      if nameEq blk (32 * i + 4) fname then .nameExists
      else ffdAux blk fname n (i + 1) acc
    else
      ffdAux blk fname n (i + 1) (if acc = none then some i else acc)

/-- `find_free_dirent`: scan all `MAX_DIRENTS` slots of the root
directory block. -/
def find_free_dirent (blk : Nat → Nat) (fname : List Nat) : FfdResult :=
  ffdAux blk fname 128 0 none

/-- Loop body of `get_highest_dirent`. -/
def getHighestAux (blk : Nat → Nat) : Nat → Nat → Option Nat → Option Nat
  | 0, _, acc => acc
  | n + 1, i, acc =>
    getHighestAux blk n (i + 1) (if blk (32 * i + 4) ≠ 0 then some i else acc)

/-- `get_highest_dirent`: index of the highest occupied slot, if any. -/
def get_highest_dirent (blk : Nat → Nat) : Option Nat :=
  getHighestAux blk 128 0 none

/-! ### In-memory block updates performed by `journal_create` -/

/-- `set_bit(bitmap, f)`: set bit `f % 8` of byte `f / 8`. -/
def setBitBuf (bm : Nat → Nat) (f : Nat) : Nat → Nat := fun o =>
  if o = f / 8 then bm (f / 8) ||| (1 <<< (f % 8)) else bm o

/-- Populate inode `idx` of an inode-table block buffer: type = FILE,
links = 1, size = 0, all 8 direct pointers = 0, ctime = mtime = `now`.
The 80 pad bytes (`[48,128)` of the record) are left as read from disk. -/
def updInode (blk : Nat → Nat) (idx now : Nat) : Nat → Nat := fun o =>
  if o < 128 * idx ∨ 128 * idx + 48 ≤ o then blk o
  else if o = 128 * idx then INODE_FILE
  else if o = 128 * idx + 2 then 1
  else if 128 * idx + 40 ≤ o ∧ o < 128 * idx + 44 then
    leByte now (o - (128 * idx + 40))
  else if 128 * idx + 44 ≤ o then leByte now (o - (128 * idx + 44))
  else 0

/-- Write directory entry `s`: inode number `f` and the name copied by
`memset(0)` + `strncpy(_, fname, 27)`. -/
def updDirent (blk : Nat → Nat) (s f : Nat) (fname : List Nat) :
    Nat → Nat := fun o =>
  if o < 32 * s ∨ 32 * s + 32 ≤ o then blk o
  else if o < 32 * s + 4 then leByte (f % U32) (o - 32 * s)
  else
    let k := o - (32 * s + 4)
    if k < min (cstrlen fname) 27 then fname.getD k 0 else 0

/-- Store the recomputed root-directory size into inode 0's `size` field
(bytes `[4,8)` of inode-table block 0). -/
def updRootSize (blk : Nat → Nat) (sz : Nat) : Nat → Nat := fun o =>
  if 4 ≤ o ∧ o < 8 then leByte sz (o - 4) else blk o

/-! ### Journal record serialization -/

/-- The bytes of a data record: `type = REC_DATA`, `size = 4104`,
`block_no = bno`, then one block of payload. -/
def dataRecBuf (bno : Nat) (blk : Nat → Nat) : Nat → Nat := fun o =>
  if o = 0 then 1
  else if o = 1 then 0
  else if o = 2 then 8
  else if o = 3 then 16
  else if o < 8 then leByte (bno % U32) (o - 4)
  else blk (o - 8)

/-- The bytes of a commit record: `type = REC_COMMIT`, `size = 4`. -/
def commitRecBuf : Nat → Nat := fun o =>
  if o = 0 then 2 else if o = 1 then 0 else if o = 2 then 4 else 0

/-- The bytes of a journal header with the given magic and cursor. -/
def jhBuf (magic used : Nat) : Nat → Nat := fun o =>
  if o < 4 then leByte magic o else leByte used (o - 4)

/-! ### `journal_create` -/

inductive CResult where
  | ok (ino : Nat)
  | nameTooLong
  | journalFull
  | noFreeInodes
  | alreadyExists
  | dirFull
  deriving Repr, DecidableEq

/-- `journal_create(filename)` against image `img` with session
superblock `sb`; `now` is the value returned by `time(NULL)`.
Returns the result and the image after the call.  Every error path
returns before the first journal write, leaving the image unchanged. -/
def journal_create (sb : Superblock) (img : Img) (fname : List Nat)
    (now : Nat) : CResult × Img :=
  if 27 < cstrlen fname then (.nameTooLong, img)
  else
    let js := jstart sb
    -- read journal header; initialize in memory if the magic is wrong
    let used :=
      if le32 img js ≠ JOURNAL_MAGIC then szJH else le32 img (js + 4)
    -- capacity check (uint32 addition)
    if JCAP < (used + NEEDED) % U32 then (.journalFull, img)
    else
      let bm : Nat → Nat := fun o => img (blockAddr sb.inode_bitmap + o)
      match findFreeInode bm with
      | none => (.noFreeInodes, img)
      | some f =>
        let inB1 : Bool := INODES_PER_BLOCK ≤ f
        let b0 : Nat → Nat := fun o => img (blockAddr sb.inode_start + o)
        let b1 : Nat → Nat :=
          fun o => img (blockAddr ((sb.inode_start + 1) % U32) + o)
        -- root directory block: inodes0[0].direct[0]
        let rdb := le32 b0 8
        let dblk : Nat → Nat := fun o => img (blockAddr rdb + o)
        match find_free_dirent dblk fname with
        | .nameExists => (.alreadyExists, img)
        | .full => (.dirFull, img)
        | .slot s =>
          -- prepare the updated blocks in memory
          let bm' := setBitBuf bm f
          let b0a := if inB1 then b0 else updInode b0 f now
          let b1' := if inB1 then updInode b1 (f - INODES_PER_BLOCK) now else b1
          let dblk' := updDirent dblk s f fname
          let b0' :=
            match get_highest_dirent dblk' with
            | some h => updRootSize b0a ((h + 1) * 32)
            | none => b0a
          -- append the records (uint32 offset arithmetic)
          let oBm := used
          let oB0 := (oBm + szDR) % U32
          let img1 := write_journal_bytes sb img oBm szDR
            (dataRecBuf sb.inode_bitmap bm')
          let img2 := write_journal_bytes sb img1 oB0 szDR
            (dataRecBuf sb.inode_start b0')
          let oB1 := (oB0 + szDR) % U32
          let img3 := if inB1 then
              write_journal_bytes sb img2 oB1 szDR
                (dataRecBuf ((sb.inode_start + 1) % U32) b1')
            else img2
          let oDir := if inB1 then (oB1 + szDR) % U32 else oB1
          let img4 := write_journal_bytes sb img3 oDir szDR
            (dataRecBuf rdb dblk')
          let oCmt := (oDir + szDR) % U32
          let img5 := write_journal_bytes sb img4 oCmt szCR commitRecBuf
          let newUsed := (oCmt + szCR) % U32
          -- persist the updated header
          let img6 := write_journal_bytes sb img5 0 szJH
            (jhBuf JOURNAL_MAGIC newUsed)
          (.ok f, img6)

/-! ### `journal_install` -/

/-- A buffered pending write: target block number and one block of
payload bytes. -/
abbrev Write : Type := Nat × (Nat → Nat)

/-- The record-scanning loop of `journal_install`, operating on the
in-memory snapshot `jd` of the used journal region.  `fuel` bounds the
iteration count (each step advances `offset` by at least 4, so
`fuel = used` always suffices); `pending` is the bounded (≤ 16) buffer of
the current transaction's data records; `applied` accumulates, in order,
the writes applied at commit records; `t` counts committed transactions.
Returns the transaction count and the ordered list of applied writes. -/
def scanRecs (jd : Nat → Nat) (used : Nat) :
    Nat → Nat → List Write → List Write → Nat → Nat × List Write
  | 0, _, _, applied, t => (t, applied)
  | fuel + 1, offset, pending, applied, t =>
    if used ≤ offset then (t, applied)
    else
      let rtype := le16 jd offset
      let rsize := le16 jd (offset + 2)
      if rsize = 0 ∨ used < offset + rsize then (t, applied)
      else if rtype = REC_DATA then
        let pending' :=
          if pending.length < 16 then
            pending ++ [((le32 jd (offset + 4), fun o => jd (offset + 8 + o)) : Write)]
          else pending
        scanRecs jd used fuel (offset + szDR) pending' applied t
      else if rtype = REC_COMMIT then
        scanRecs jd used fuel (offset + szCR) [] (applied ++ pending) (t + 1)
      else (t, applied)

/-- Apply a list of buffered writes to the image, in order. -/
def applyWrites (img : Img) (ws : List Write) : Img :=
  ws.foldl (fun im w => write_block im w.1 w.2) img

/-- `journal_install()`: returns the number of committed transactions
applied and the image after the call.  The scan reads only from the
snapshot of the journal taken before any block is written, so the
block writes are modelled as being applied after the scan, in order. -/
def journal_install (sb : Superblock) (img : Img) : Nat × Img :=
  let js := jstart sb
  let magic := le32 img js
  let used := le32 img (js + 4)
  if magic ≠ JOURNAL_MAGIC then (0, img)
  else if used ≤ szJH then (0, img)
  else
    let jd : Nat → Nat := fun o => img (js + o)
    let r := scanRecs jd used used szJH [] [] 0
    (r.1, writeBytes (applyWrites img r.2) js szJH (jhBuf JOURNAL_MAGIC szJH))

/-! ### A freshly formatted image

Modelled from the spec: `mkfs.c` (the filesystem formatter) is not part
of the given sources, so the freshly formatted image is built from the
spec's data model and layout (§3, §6 and the README): block 0 is the
superblock, a 16-block journal follows at block 1, then the inode bitmap,
the data bitmap, two inode-table blocks for 64 inodes, and the data
region whose first block holds the (empty) root directory.  Inode 0 is
the root directory; its bitmap bit is set and its first direct pointer
names the root directory block.  The journal region is zeroed (magic
absent: "first use of an uninitialized log"). -/

/-- Serialized superblock fields (bytes `[0,36)` of block 0). -/
def sbEnc (sb : Superblock) : Nat → Nat := fun a =>
  if a < 4 then leByte sb.magic a
  else if a < 8 then leByte sb.block_size (a - 4)
  else if a < 12 then leByte sb.total_blocks (a - 8)
  else if a < 16 then leByte sb.inode_count (a - 12)
  else if a < 20 then leByte sb.journal_block (a - 16)
  else if a < 24 then leByte sb.inode_bitmap (a - 20)
  else if a < 28 then leByte sb.data_bitmap (a - 24)
  else if a < 32 then leByte sb.inode_start (a - 28)
  else leByte sb.data_start (a - 32)

/-- The session superblock of the fresh image. -/
def sbF : Superblock :=
  { magic := SUPERBLOCK_MAGIC
    block_size := 4096
    total_blocks := 85
    inode_count := 64
    journal_block := 1
    inode_bitmap := 17
    data_bitmap := 18
    inode_start := 19
    data_start := 21 }

/-- Bytes of the root inode (inode 0): type = DIR, links = 1, size = 0,
`direct[0]` = the root directory block, all other fields zero. -/
def rootInodeByte (o : Nat) : Nat :=
  if o = 0 then INODE_DIR
  else if o = 2 then 1
  else if o = 8 then 21
  else 0

/-- The freshly formatted image. -/
def freshImg : Img := fun a =>
  if a < 36 then sbEnc sbF a
  else if a = 17 * 4096 then 1
  else if 19 * 4096 ≤ a ∧ a < 19 * 4096 + 48 then rootInodeByte (a - 19 * 4096)
  else 0

/-! ### Basic byte-level lemmas -/

theorem writeBytes_in (img : Img) (pos len : Nat) (buf : Nat → Nat) (a : Nat)
    (h1 : pos ≤ a) (h2 : a < pos + len) :
    writeBytes img pos len buf a = buf (a - pos) := by
  simp [writeBytes, h1, h2]

theorem writeBytes_out (img : Img) (pos len : Nat) (buf : Nat → Nat) (a : Nat)
    (h : a < pos ∨ pos + len ≤ a) :
    writeBytes img pos len buf a = img a := by
  rcases h with h | h <;> simp [writeBytes] <;> omega

theorem leByte_lt (v k : Nat) : leByte v k < 256 := by
  simp only [leByte]
  exact Nat.mod_lt _ (by norm_num)

/-- Reading back a just-written journal header: the magic field. -/
theorem le32_writeBytes_jhBuf_magic (img : Img) (p m u : Nat) :
    le32 (writeBytes img p szJH (jhBuf m u)) p = m % U32 := by
  have h0 := writeBytes_in img p szJH (jhBuf m u) p (Nat.le_refl _) (by simp [szJH])
  have h1 := writeBytes_in img p szJH (jhBuf m u) (p + 1) (by omega) (by simp only [szJH]; omega)
  have h2 := writeBytes_in img p szJH (jhBuf m u) (p + 2) (by omega) (by simp only [szJH]; omega)
  have h3 := writeBytes_in img p szJH (jhBuf m u) (p + 3) (by omega) (by simp only [szJH]; omega)
  simp only [le32, h0, h1, h2, h3, Nat.sub_self]
  have e1 : p + 1 - p = 1 := by omega
  have e2 : p + 2 - p = 2 := by omega
  have e3 : p + 3 - p = 3 := by omega
  rw [e1, e2, e3]
  simp only [jhBuf, leByte]
  norm_num [U32]
  omega

/-- Reading back a just-written journal header: the `nbytes_used` field. -/
theorem le32_writeBytes_jhBuf_used (img : Img) (p m u : Nat) :
    le32 (writeBytes img p szJH (jhBuf m u)) (p + 4) = u % U32 := by
  have h0 := writeBytes_in img p szJH (jhBuf m u) (p + 4) (by omega) (by simp only [szJH]; omega)
  have h1 := writeBytes_in img p szJH (jhBuf m u) (p + 4 + 1) (by omega) (by simp only [szJH]; omega)
  have h2 := writeBytes_in img p szJH (jhBuf m u) (p + 4 + 2) (by omega) (by simp only [szJH]; omega)
  have h3 := writeBytes_in img p szJH (jhBuf m u) (p + 4 + 3) (by omega) (by simp only [szJH]; omega)
  simp only [le32, h0, h1, h2, h3]
  have e0 : p + 4 - p = 4 := by omega
  have e1 : p + 4 + 1 - p = 5 := by omega
  have e2 : p + 4 + 2 - p = 6 := by omega
  have e3 : p + 4 + 3 - p = 7 := by omega
  rw [e0, e1, e2, e3]
  simp only [jhBuf, leByte]
  norm_num [U32]
  omega

/-! ### Claim C5: install is idempotent -/

/-- Install on an uninitialized or empty journal is a no-op returning
zero transactions. -/
theorem install_noop (sb : Superblock) (img : Img)
    (h : le32 img (jstart sb) ≠ JOURNAL_MAGIC
      ∨ le32 img (jstart sb + 4) ≤ szJH) :
    journal_install sb img = (0, img) := by
  by_cases hm : le32 img (jstart sb) = JOURNAL_MAGIC
  · have hu : le32 img (jstart sb + 4) ≤ szJH := by tauto
    simp [journal_install, hm, hu]
  · simp [journal_install, hm]

/-- **C5.** Install is idempotent: on a journal whose header magic is
absent or whose `used_bytes` is at most the header size, `journal_install`
returns zero transactions and leaves the image untouched; and for every
image, a second `journal_install` right after a first one returns zero
transactions and leaves the image exactly as the first call left it. -/
theorem C5_install_idempotent (sb : Superblock) (img : Img) :
    ((le32 img (jstart sb) ≠ JOURNAL_MAGIC ∨ le32 img (jstart sb + 4) ≤ szJH) →
      journal_install sb img = (0, img)) ∧
    journal_install sb (journal_install sb img).2
      = (0, (journal_install sb img).2) := by
  constructor
  · exact install_noop sb img
  · by_cases hm : le32 img (jstart sb) = JOURNAL_MAGIC
    · by_cases hu : le32 img (jstart sb + 4) ≤ szJH
      · simp [journal_install, hm, hu]
      · have hfst : journal_install sb img
            = ((scanRecs (fun o => img (jstart sb + o)) (le32 img (jstart sb + 4))
                  (le32 img (jstart sb + 4)) szJH [] [] 0).1,
               writeBytes (applyWrites img (scanRecs (fun o => img (jstart sb + o))
                  (le32 img (jstart sb + 4)) (le32 img (jstart sb + 4)) szJH [] [] 0).2)
                 (jstart sb) szJH (jhBuf JOURNAL_MAGIC szJH)) := by
          simp [journal_install, hm, hu]
        rw [hfst]
        have hm2 := le32_writeBytes_jhBuf_magic
          (applyWrites img (scanRecs (fun o => img (jstart sb + o))
            (le32 img (jstart sb + 4)) (le32 img (jstart sb + 4)) szJH [] [] 0).2)
          (jstart sb) JOURNAL_MAGIC szJH
        have hu2 := le32_writeBytes_jhBuf_used
          (applyWrites img (scanRecs (fun o => img (jstart sb + o))
            (le32 img (jstart sb + 4)) (le32 img (jstart sb + 4)) szJH [] [] 0).2)
          (jstart sb) JOURNAL_MAGIC szJH
        have hmv : JOURNAL_MAGIC % U32 = JOURNAL_MAGIC := by decide
        have huv : szJH % U32 = szJH := by decide
        rw [hmv] at hm2
        rw [huv] at hu2
        simp [journal_install, hm2, hu2]
    · simp [journal_install, hm]

/-- Witness for C5 at the fresh image (journal magic absent). -/
theorem C5_witness :
    journal_install sbF freshImg = (0, freshImg) ∧
    journal_install sbF (journal_install sbF freshImg).2
      = (0, (journal_install sbF freshImg).2) :=
  ⟨(C5_install_idempotent sbF freshImg).1 (Or.inl (by decide)),
   (C5_install_idempotent sbF freshImg).2⟩

/-! ### Claim C7: the directory-slot scan -/

/-- Loop invariant characterization of `ffdAux`: starting at slot `i` with
`n = 128 - i` slots to go and `acc` the lowest empty slot seen so far. -/
theorem ffdAux_char (blk : Nat → Nat) (fname : List Nat) :
    ∀ (n i : Nat) (acc : Option Nat), i + n = 128 →
    (acc = none → ∀ j, j < i → blk (32 * j + 4) ≠ 0) →
    (∀ s, acc = some s → s < i ∧ blk (32 * s + 4) = 0
      ∧ ∀ j, j < s → blk (32 * j + 4) ≠ 0) →
    ((ffdAux blk fname n i acc = .nameExists ↔
       ∃ j, i ≤ j ∧ j < 128 ∧ blk (32 * j + 4) ≠ 0
         ∧ nameEq blk (32 * j + 4) fname = true) ∧
     (∀ s, ffdAux blk fname n i acc = .slot s →
       (¬ ∃ j, i ≤ j ∧ j < 128 ∧ blk (32 * j + 4) ≠ 0
         ∧ nameEq blk (32 * j + 4) fname = true)
       ∧ s < 128 ∧ blk (32 * s + 4) = 0 ∧ ∀ j, j < s → blk (32 * j + 4) ≠ 0) ∧
     (ffdAux blk fname n i acc = .full →
       (¬ ∃ j, i ≤ j ∧ j < 128 ∧ blk (32 * j + 4) ≠ 0
         ∧ nameEq blk (32 * j + 4) fname = true)
       ∧ ∀ j, j < 128 → blk (32 * j + 4) ≠ 0)) := by
  intro n
  induction n with
  | zero =>
    intro i acc hi hnone hsome
    match acc with
    | none =>
      refine ⟨?_, ?_, ?_⟩
      · simp only [ffdAux]
        constructor
        · intro h; cases h
        · rintro ⟨j, h1, h2, _⟩; omega
      · intro s h; cases h
      · intro _
        exact ⟨by rintro ⟨j, h1, h2, _⟩; omega,
          fun j hj => hnone rfl j (by omega)⟩
    | some s =>
      refine ⟨?_, ?_, ?_⟩
      · simp only [ffdAux]
        constructor
        · intro h; cases h
        · rintro ⟨j, h1, h2, _⟩; omega
      · intro s' h
        simp only [ffdAux] at h
        cases h
        obtain ⟨g1, g2, g3⟩ := hsome s rfl
        exact ⟨by rintro ⟨j, h1, h2, _⟩; omega, by omega, g2, g3⟩
      · intro h
        simp only [ffdAux] at h
        cases h
  | succ n ih =>
    intro i acc hi hnone hsome
    have hi128 : i < 128 := by omega
    by_cases hocc : blk (32 * i + 4) ≠ 0
    · by_cases hdup : nameEq blk (32 * i + 4) fname = true
      · have hres : ffdAux blk fname (n + 1) i acc = .nameExists := by
          simp only [ffdAux, if_pos hocc, if_pos hdup]
        refine ⟨?_, ?_, ?_⟩
        · rw [hres]
          exact ⟨fun _ => ⟨i, Nat.le_refl _, hi128, hocc, hdup⟩, fun _ => rfl⟩
        · intro s h; rw [hres] at h; cases h
        · intro h; rw [hres] at h; cases h
      · have hres : ffdAux blk fname (n + 1) i acc
            = ffdAux blk fname n (i + 1) acc := by
          simp only [ffdAux, if_pos hocc, if_neg hdup]
        have hnone' : acc = none → ∀ j, j < i + 1 → blk (32 * j + 4) ≠ 0 := by
          intro ha j hj
          rcases Nat.lt_succ_iff_lt_or_eq.mp hj with h | h
          · exact hnone ha j h
          · subst h; exact hocc
        have hsome' : ∀ s, acc = some s → s < i + 1 ∧ blk (32 * s + 4) = 0
            ∧ ∀ j, j < s → blk (32 * j + 4) ≠ 0 := by
          intro s ha
          obtain ⟨g1, g2, g3⟩ := hsome s ha
          exact ⟨by omega, g2, g3⟩
        obtain ⟨e1, e2, e3⟩ := ih (i + 1) acc (by omega) hnone' hsome'
        have hshift : (∃ j, i ≤ j ∧ j < 128 ∧ blk (32 * j + 4) ≠ 0
              ∧ nameEq blk (32 * j + 4) fname = true)
            ↔ ∃ j, i + 1 ≤ j ∧ j < 128 ∧ blk (32 * j + 4) ≠ 0
              ∧ nameEq blk (32 * j + 4) fname = true := by
          constructor
          · rintro ⟨j, h1, h2, h3, h4⟩
            refine ⟨j, ?_, h2, h3, h4⟩
            rcases Nat.eq_or_lt_of_le h1 with h | h
            · subst h; exact absurd h4 hdup
            · omega
          · rintro ⟨j, h1, h2, h3, h4⟩; exact ⟨j, by omega, h2, h3, h4⟩
        refine ⟨?_, ?_, ?_⟩
        · rw [hres, e1]; exact hshift.symm
        · intro s h
          rw [hres] at h
          obtain ⟨g1, g2, g3, g4⟩ := e2 s h
          exact ⟨fun hc => g1 (hshift.mp hc), g2, g3, g4⟩
        · intro h
          rw [hres] at h
          obtain ⟨g1, g2⟩ := e3 h
          exact ⟨fun hc => g1 (hshift.mp hc), g2⟩
    · push_neg at hocc
      have hres : ffdAux blk fname (n + 1) i acc
          = ffdAux blk fname n (i + 1) (if acc = none then some i else acc) := by
        simp only [ffdAux]
        rw [if_neg (by simpa using hocc)]
      have hnone' : (if acc = none then some i else acc) = none →
          ∀ j, j < i + 1 → blk (32 * j + 4) ≠ 0 := by
        intro ha
        by_cases h : acc = none
        · rw [if_pos h] at ha; cases ha
        · rw [if_neg h] at ha; exact absurd ha h
      have hsome' : ∀ s, (if acc = none then some i else acc) = some s →
          s < i + 1 ∧ blk (32 * s + 4) = 0
            ∧ ∀ j, j < s → blk (32 * j + 4) ≠ 0 := by
        intro s ha
        by_cases h : acc = none
        · rw [if_pos h] at ha
          cases ha
          exact ⟨by omega, hocc, hnone h⟩
        · rw [if_neg h] at ha
          obtain ⟨g1, g2, g3⟩ := hsome s ha
          exact ⟨by omega, g2, g3⟩
      obtain ⟨e1, e2, e3⟩ := ih (i + 1) _ (by omega) hnone' hsome'
      have hshift : (∃ j, i ≤ j ∧ j < 128 ∧ blk (32 * j + 4) ≠ 0
            ∧ nameEq blk (32 * j + 4) fname = true)
          ↔ ∃ j, i + 1 ≤ j ∧ j < 128 ∧ blk (32 * j + 4) ≠ 0
            ∧ nameEq blk (32 * j + 4) fname = true := by
        constructor
        · rintro ⟨j, h1, h2, h3, h4⟩
          refine ⟨j, ?_, h2, h3, h4⟩
          rcases Nat.eq_or_lt_of_le h1 with h | h
          · subst h; exact absurd hocc h3
          · omega
        · rintro ⟨j, h1, h2, h3, h4⟩; exact ⟨j, by omega, h2, h3, h4⟩
      refine ⟨?_, ?_, ?_⟩
      · rw [hres, e1]; exact hshift.symm
      · intro s h
        rw [hres] at h
        obtain ⟨g1, g2, g3, g4⟩ := e2 s h
        exact ⟨fun hc => g1 (hshift.mp hc), g2, g3, g4⟩
      · intro h
        rw [hres] at h
        obtain ⟨g1, g2⟩ := e3 h
        exact ⟨fun hc => g1 (hshift.mp hc), g2⟩

/-- **C7.** The free-slot search scans all 128 slots exactly once:
it fails with `AlreadyExists` iff some occupied slot's name equals the
requested name (taking priority over fullness); otherwise it returns the
lowest-indexed empty slot; and it fails with `DirectoryFull` exactly when
every slot is occupied and no name matches. -/
theorem C7_find_free_dirent_char (blk : Nat → Nat) (fname : List Nat) :
    (find_free_dirent blk fname = .nameExists ↔
      ∃ i, i < 128 ∧ blk (32 * i + 4) ≠ 0
        ∧ nameEq blk (32 * i + 4) fname = true) ∧
    (∀ s, find_free_dirent blk fname = .slot s →
      (¬ ∃ i, i < 128 ∧ blk (32 * i + 4) ≠ 0
        ∧ nameEq blk (32 * i + 4) fname = true)
      ∧ s < 128 ∧ blk (32 * s + 4) = 0
      ∧ ∀ j, j < s → blk (32 * j + 4) ≠ 0) ∧
    (find_free_dirent blk fname = .full ↔
      (¬ ∃ i, i < 128 ∧ blk (32 * i + 4) ≠ 0
        ∧ nameEq blk (32 * i + 4) fname = true)
      ∧ ∀ i, i < 128 → blk (32 * i + 4) ≠ 0) := by
  obtain ⟨e1, e2, e3⟩ := ffdAux_char blk fname 128 0 none (by omega)
    (by intro _ j hj; omega) (by intro s h; cases h)
  have hz : ∀ (P : Nat → Prop), (∃ j, 0 ≤ j ∧ j < 128 ∧ P j) ↔ ∃ j, j < 128 ∧ P j := by
    intro P
    constructor
    · rintro ⟨j, _, h2, h3⟩; exact ⟨j, h2, h3⟩
    · rintro ⟨j, h2, h3⟩; exact ⟨j, Nat.zero_le _, h2, h3⟩
  refine ⟨?_, ?_, ?_⟩
  · rw [show find_free_dirent blk fname = ffdAux blk fname 128 0 none from rfl, e1]
    exact hz fun j => blk (32 * j + 4) ≠ 0 ∧ nameEq blk (32 * j + 4) fname = true
  · intro s h
    obtain ⟨g1, g2, g3, g4⟩ := e2 s h
    refine ⟨fun hc => g1 ?_, g2, g3, g4⟩
    exact (hz fun j => blk (32 * j + 4) ≠ 0 ∧ nameEq blk (32 * j + 4) fname = true).mpr hc
  · constructor
    · intro h
      obtain ⟨g1, g2⟩ := e3 h
      exact ⟨fun hc => g1 ((hz _).mpr hc), fun i hi => g2 i hi⟩
    · rintro ⟨g1, g2⟩
      rcases hr : find_free_dirent blk fname with s | _ | _
      · obtain ⟨_, _, g3, _⟩ := e2 s hr
        exact absurd g3 (g2 s (by obtain ⟨_, h2, _⟩ := e2 s hr; exact h2))
      · rw [show find_free_dirent blk fname = ffdAux blk fname 128 0 none from rfl] at hr
        rw [e1] at hr
        exact absurd ((hz _).mp hr) g1
      · rfl

/-- Witness for C7: on an all-zero directory block, any name gets slot 0. -/
theorem C7_witness :
    (¬ ∃ i, i < 128 ∧ (fun _ => 0 : Nat → Nat) (32 * i + 4) ≠ 0
      ∧ nameEq (fun _ => 0) (32 * i + 4) [97] = true)
    ∧ 0 < 128 ∧ (fun _ => 0 : Nat → Nat) (32 * 0 + 4) = 0
    ∧ ∀ j, j < 0 → (fun _ => 0 : Nat → Nat) (32 * j + 4) ≠ 0 :=
  (C7_find_free_dirent_char (fun _ => 0) [97]).2.1 0 (by decide)

/-! ### Claim C2: the journal capacity check -/

/-- The append cursor as `journal_create` computes it: the stored
`nbytes_used`, or the header size if the journal magic is absent. -/
def usedOf (sb : Superblock) (img : Img) : Nat :=
  if le32 img (jstart sb) ≠ JOURNAL_MAGIC then szJH else le32 img (jstart sb + 4)

/-- Image after one `create` on the fresh image (name `"a"`). -/
def seqImg1 : Img := (journal_create sbF freshImg [97] 10).2
/-- Image after a second `create` (name `"b"`). -/
def seqImg2 : Img := (journal_create sbF seqImg1 [98] 11).2
/-- Image after a third `create` (name `"c"`). -/
def seqImg3 : Img := (journal_create sbF seqImg2 [99] 12).2
/-- Image after a fourth `create` (name `"d"`). -/
def seqImg4 : Img := (journal_create sbF seqImg3 [100] 13).2

/-- Counterexample to C2: after four successful creates from the fresh
image, `used_bytes = 49272`; the next transaction would actually need
only three Data Records plus a Commit (its inode lives in the first
inode-table block), and `49272 + 3·4104 + 4 ≤ 65536` fits — yet the
fifth create fails with `JournalFull`, because the code always reserves
four Data Records plus a Commit (16420 bytes). -/
theorem C2_counterexample :
    (journal_create sbF freshImg [97] 10).1 = .ok 1 ∧
    (journal_create sbF seqImg1 [98] 11).1 = .ok 1 ∧
    (journal_create sbF seqImg2 [99] 12).1 = .ok 1 ∧
    (journal_create sbF seqImg3 [100] 13).1 = .ok 1 ∧
    le32 seqImg4 (jstart sbF + 4) = 49272 ∧
    findFreeInode (fun o => seqImg4 (blockAddr sbF.inode_bitmap + o)) = some 1 ∧
    49272 + (3 * szDR + szCR) ≤ JCAP ∧
    (journal_create sbF seqImg4 [101] 14).1 = .journalFull :=
  ⟨by decide, by decide, by decide, by decide, by decide, by decide,
   by decide, by decide⟩

/-- **C2 (amended).** For a name within the length limit, `create` fails
with `JournalFull` exactly when `used_bytes` plus the fixed reservation of
four Data Records and one Commit Record (16420 bytes, regardless of how
many records the transaction actually writes) exceeds the journal
capacity in `uint32` arithmetic; and on that failure the image — in
particular the whole journal region — is byte-for-byte unchanged. -/
theorem C2_capacity_check (sb : Superblock) (img : Img) (fname : List Nat)
    (now : Nat) (hname : cstrlen fname ≤ 27) :
    ((journal_create sb img fname now).1 = .journalFull ↔
      JCAP < (usedOf sb img + NEEDED) % U32) ∧
    ((journal_create sb img fname now).1 = .journalFull →
      (journal_create sb img fname now).2 = img) := by
  have hn : ¬ 27 < cstrlen fname := by omega
  by_cases hcap : JCAP < (usedOf sb img + NEEDED) % U32
  · have hful : journal_create sb img fname now = (.journalFull, img) := by
      rw [journal_create, if_neg hn]
      simp only [usedOf] at hcap
      rw [if_pos hcap]
    rw [hful]
    exact ⟨⟨fun _ => hcap, fun _ => rfl⟩, fun _ => rfl⟩
  · have hne : (journal_create sb img fname now).1 ≠ .journalFull := by
      rw [journal_create, if_neg hn]
      simp only [usedOf] at hcap
      rw [if_neg hcap]
      rcases hf : findFreeInode
          (fun o => img (blockAddr sb.inode_bitmap + o)) with _ | f
      · simp only [hf]
        simp
      · rcases hd : find_free_dirent
            (fun o => img (blockAddr
              (le32 (fun o => img (blockAddr sb.inode_start + o)) 8) + o))
            fname with s | _ | _ <;> simp only [hf, hd] <;> simp
    exact ⟨⟨fun h => absurd h hne, fun h => absurd h hcap⟩,
      fun h => absurd h hne⟩

/-- Witness for C2 (amended), at the state after four creates. -/
theorem C2_witness :
    cstrlen [101] ≤ 27 ∧ (journal_create sbF seqImg4 [101] 14).1 = .journalFull :=
  ⟨by decide,
   ((C2_capacity_check sbF seqImg4 [101] 14 (by decide)).1).mpr (by decide)⟩

/-! ### The success path of `journal_create`, as an explicit image -/

/-- The image produced by the success path of `journal_create`, written
out explicitly: the five (or six, when the new inode lives in the second
inode-table block) journal writes applied to `img`, with allocated inode
`f` and directory slot `s`. -/
def createdImg (sb : Superblock) (img : Img) (fname : List Nat)
    (now f s : Nat) : Img :=
  let used := usedOf sb img
  let inB1 : Bool := INODES_PER_BLOCK ≤ f
  let bm : Nat → Nat := fun o => img (blockAddr sb.inode_bitmap + o)
  let b0 : Nat → Nat := fun o => img (blockAddr sb.inode_start + o)
  let b1 : Nat → Nat :=
    fun o => img (blockAddr ((sb.inode_start + 1) % U32) + o)
  let rdb := le32 b0 8
  let dblk : Nat → Nat := fun o => img (blockAddr rdb + o)
  let bm' := setBitBuf bm f
  let b0a := if inB1 then b0 else updInode b0 f now
  let b1' := if inB1 then updInode b1 (f - INODES_PER_BLOCK) now else b1
  let dblk' := updDirent dblk s f fname
  let b0' :=
    match get_highest_dirent dblk' with
    | some h => updRootSize b0a ((h + 1) * 32)
    | none => b0a
  let oBm := used
  let oB0 := (oBm + szDR) % U32
  let img1 := write_journal_bytes sb img oBm szDR
    (dataRecBuf sb.inode_bitmap bm')
  let img2 := write_journal_bytes sb img1 oB0 szDR
    (dataRecBuf sb.inode_start b0')
  let oB1 := (oB0 + szDR) % U32
  let img3 := if inB1 then
      write_journal_bytes sb img2 oB1 szDR
        (dataRecBuf ((sb.inode_start + 1) % U32) b1')
    else img2
  let oDir := if inB1 then (oB1 + szDR) % U32 else oB1
  let img4 := write_journal_bytes sb img3 oDir szDR (dataRecBuf rdb dblk')
  let oCmt := (oDir + szDR) % U32
  let img5 := write_journal_bytes sb img4 oCmt szCR commitRecBuf
  let newUsed := (oCmt + szCR) % U32
  write_journal_bytes sb img5 0 szJH (jhBuf JOURNAL_MAGIC newUsed)

/-- When all checks pass, `journal_create` returns the allocated inode
and the explicit image `createdImg`. -/
theorem journal_create_eq_ok (sb : Superblock) (img : Img)
    (fname : List Nat) (now f s : Nat)
    (h27 : ¬ 27 < cstrlen fname)
    (hcap : ¬ JCAP < (usedOf sb img + NEEDED) % U32)
    (hf : findFreeInode (fun o => img (blockAddr sb.inode_bitmap + o)) = some f)
    (hs : find_free_dirent
      (fun o => img (blockAddr
        (le32 (fun o => img (blockAddr sb.inode_start + o)) 8) + o))
      fname = .slot s) :
    journal_create sb img fname now = (.ok f, createdImg sb img fname now f s) := by
  rw [journal_create, if_neg h27]
  simp only [usedOf] at hcap
  rw [if_neg hcap]
  simp only [hf, hs]
  rfl

/-- Conversely, a successful `journal_create` implies all checks passed
and the result image is `createdImg`. -/
theorem journal_create_ok_shape (sb : Superblock) (img : Img)
    (fname : List Nat) (now f : Nat) (img' : Img)
    (hok : journal_create sb img fname now = (.ok f, img')) :
    ¬ 27 < cstrlen fname ∧
    ¬ JCAP < (usedOf sb img + NEEDED) % U32 ∧
    findFreeInode (fun o => img (blockAddr sb.inode_bitmap + o)) = some f ∧
    ∃ s, find_free_dirent
        (fun o => img (blockAddr
          (le32 (fun o => img (blockAddr sb.inode_start + o)) 8) + o))
        fname = .slot s ∧
      img' = createdImg sb img fname now f s := by
  by_cases h27 : 27 < cstrlen fname
  · rw [journal_create, if_pos h27] at hok
    exact absurd (congrArg Prod.fst hok) (by simp)
  by_cases hcap : JCAP < (usedOf sb img + NEEDED) % U32
  · rw [journal_create, if_neg h27] at hok
    simp only [usedOf] at hcap
    rw [if_pos hcap] at hok
    exact absurd (congrArg Prod.fst hok) (by simp)
  rcases hf : findFreeInode
      (fun o => img (blockAddr sb.inode_bitmap + o)) with _ | f'
  · rw [journal_create, if_neg h27] at hok
    simp only [usedOf] at hcap
    rw [if_neg hcap] at hok
    simp only [hf] at hok
    exact absurd (congrArg Prod.fst hok) (by simp)
  rcases hd : find_free_dirent
      (fun o => img (blockAddr
        (le32 (fun o => img (blockAddr sb.inode_start + o)) 8) + o))
      fname with s | _ | _
  · have hok' := hok
    rw [journal_create_eq_ok sb img fname now f' s h27 (by simpa [usedOf] using hcap) hf hd] at hok'
    obtain rfl : f' = f := by simpa using congrArg Prod.fst hok'
    refine ⟨h27, by simpa [usedOf] using hcap, rfl, s, rfl, ?_⟩
    have h2 : createdImg sb img fname now f' s = img' := by
      simpa using congrArg Prod.snd hok'
    exact h2.symm
  · rw [journal_create, if_neg h27] at hok
    simp only [usedOf] at hcap
    rw [if_neg hcap] at hok
    simp only [hf, hd] at hok
    exact absurd (congrArg Prod.fst hok) (by simp)
  · rw [journal_create, if_neg h27] at hok
    simp only [usedOf] at hcap
    rw [if_neg hcap] at hok
    simp only [hf, hd] at hok
    exact absurd (congrArg Prod.fst hok) (by simp)

/-! ### Claim C8: a successful create writes only inside the journal -/

/-- Frame property of the success-path image: when the capacity check
passed without `uint32` wrap-around and the journal span itself fits in
the `uint32` address space, every byte outside the journal span
`[jstart, jstart + JCAP)` is unchanged. -/
theorem createdImg_frame (sb : Superblock) (img : Img) (fname : List Nat)
    (now f s : Nat)
    (hcap : usedOf sb img + NEEDED ≤ JCAP)
    (hspan : jstart sb + JCAP ≤ U32) :
    ∀ a, a < jstart sb ∨ jstart sb + JCAP ≤ a →
      createdImg sb img fname now f s a = img a := by
  intro a ha
  have hU : U32 = 4294967296 := rfl
  have hC : JCAP = 65536 := rfl
  have hN : NEEDED = 16420 := rfl
  have hD : szDR = 4104 := rfl
  have hR : szCR = 4 := rfl
  have hH : szJH = 8 := rfl
  rw [hC] at hspan ha
  rw [hC, hN] at hcap
  rw [hU] at hspan
  set u := usedOf sb img with hudef
  set js := jstart sb with hjsdef
  have key : ∀ (im : Img) (off len : Nat) (buf : Nat → Nat),
      0 < len → off + len ≤ 65536 →
      write_journal_bytes sb im off len buf a = im a := by
    intro im off len buf hl hol
    unfold write_journal_bytes
    rw [← hjsdef]
    have hpos : (js + off) % U32 = js + off := by
      rw [hU]; exact Nat.mod_eq_of_lt (by omega)
    rw [hpos]
    apply writeBytes_out
    rcases ha with h | h
    · left; omega
    · right; omega
  have e1 : (u + szDR) % U32 = u + szDR := by
    rw [hU, hD]; exact Nat.mod_eq_of_lt (by omega)
  have e2 : (u + szDR + szDR) % U32 = u + szDR + szDR := by
    rw [hU, hD]; exact Nat.mod_eq_of_lt (by omega)
  have e3 : (u + szDR + szDR + szDR) % U32 = u + szDR + szDR + szDR := by
    rw [hU, hD]; exact Nat.mod_eq_of_lt (by omega)
  have e4 : (u + szDR + szDR + szDR + szDR) % U32
      = u + szDR + szDR + szDR + szDR := by
    rw [hU, hD]; exact Nat.mod_eq_of_lt (by omega)
  simp only [createdImg]
  rw [← hudef]
  simp only [Nat.mod_add_mod]
  split_ifs with hb
  · rw [e1, e2, e3, e4]
    rw [key _ 0 szJH _ (by rw [hH]; omega) (by rw [hH]; omega)]
    rw [key _ (u + szDR + szDR + szDR + szDR) szCR _
      (by rw [hR]; omega) (by rw [hR, hD]; omega)]
    rw [key _ (u + szDR + szDR + szDR) szDR _ (by rw [hD]; omega)
      (by rw [hD]; omega)]
    rw [key _ (u + szDR + szDR) szDR _ (by rw [hD]; omega)
      (by rw [hD]; omega)]
    rw [key _ (u + szDR) szDR _ (by rw [hD]; omega) (by rw [hD]; omega)]
    rw [key _ u szDR _ (by rw [hD]; omega) (by rw [hD]; omega)]
  · rw [e1, e2, e3]
    rw [key _ 0 szJH _ (by rw [hH]; omega) (by rw [hH]; omega)]
    rw [key _ (u + szDR + szDR + szDR) szCR _
      (by rw [hR]; omega) (by rw [hR, hD]; omega)]
    rw [key _ (u + szDR + szDR) szDR _ (by rw [hD]; omega)
      (by rw [hD]; omega)]
    rw [key _ (u + szDR) szDR _ (by rw [hD]; omega) (by rw [hD]; omega)]
    rw [key _ u szDR _ (by rw [hD]; omega) (by rw [hD]; omega)]

/-- **C8 (amended).** A successful `create` writes only within the
journal's allocated span: provided the journal span fits in the `uint32`
address space and the stored cursor does not overflow the `uint32`
capacity check (`used_bytes + 16420 < 2^32`), every byte outside
`[jstart, jstart + journal_blocks·block_size)` — the superblock, the
bitmaps, the inode table, the root directory and the data region of any
sane layout — is byte-for-byte unchanged. -/
theorem C8_create_frame (sb : Superblock) (img : Img) (fname : List Nat)
    (now f : Nat) (img' : Img)
    (hspan : jstart sb + JCAP ≤ U32)
    (hwrap : usedOf sb img + NEEDED < U32)
    (hok : journal_create sb img fname now = (.ok f, img')) :
    ∀ a, a < jstart sb ∨ jstart sb + JCAP ≤ a → img' a = img a := by
  obtain ⟨h27, hcap, hf, s, hs, rfl⟩ :=
    journal_create_ok_shape sb img fname now f img' hok
  apply createdImg_frame
  · rw [Nat.mod_eq_of_lt hwrap] at hcap
    omega
  · exact hspan

/-- Witness for C8: the first create on the fresh image leaves the
superblock byte 0 unchanged. -/
theorem C8_witness : seqImg1 0 = freshImg 0 :=
  C8_create_frame sbF freshImg [97] 10 1 seqImg1 (by decide) (by decide)
    (by
      have h1 : (journal_create sbF freshImg [97] 10).1 = .ok 1 := by decide
      have h2 : journal_create sbF freshImg [97] 10
          = ((journal_create sbF freshImg [97] 10).1, seqImg1) := rfl
      rw [h2, h1])
    0 (Or.inl (by decide))

/-- An image whose journal header stores the adversarial cursor
`2^32 - 16420`: the `uint32` capacity check wraps around and passes. -/
def imgC8 : Img := fun a =>
  if 4096 ≤ a ∧ a < 4104 then jhBuf JOURNAL_MAGIC 4294950876 (a - 4096)
  else freshImg a

/-- Counterexample to C8 as stated: with the stored cursor
`used_bytes = 2^32 - 16420` (readable from a crafted but well-magicked
journal header), the capacity check `used + 16420 > 65536` wraps to `0`
in `uint32` arithmetic and passes, the create succeeds, and its first
record write lands at file offset `js + used mod 2^32 = 4294954972` —
far outside the journal span `[4096, 69632)`. -/
theorem C8_counterexample :
    (journal_create sbF imgC8 [97] 0).1 = .ok 1 ∧
    jstart sbF + JCAP ≤ 4294954972 ∧
    (journal_create sbF imgC8 [97] 0).2 4294954972 = 1 ∧
    imgC8 4294954972 = 0 :=
  ⟨by decide, by decide, by decide, by decide⟩

/-! ### Claim C1: dangling records are never applied -/

/-- The scan starting at offset `d` sees only well-formed Data Records up
to `used` (a dangling run with no Commit).  `dfuel` is a structural bound
on the number of records. -/
def onlyDataFrom (jd : Nat → Nat) (used : Nat) : Nat → Nat → Bool
  | 0, _ => false
  | dfuel + 1, d =>
    if used ≤ d then true
    else if le16 jd (d + 2) = 0 ∨ used < d + le16 jd (d + 2) then false
    else if le16 jd d = REC_DATA then onlyDataFrom jd used dfuel (d + szDR)
    else false

/-- Scanning a region that contains only Data Records applies nothing:
the pending records are buffered and then discarded, and the applied
list and transaction count come out unchanged. -/
theorem scanRecs_onlyData (jd : Nat → Nat) (used : Nat) :
    ∀ (fuel dfuel d : Nat) (pending applied : List Write) (t : Nat),
    onlyDataFrom jd used dfuel d = true →
    scanRecs jd used fuel d pending applied t = (t, applied) := by
  intro fuel
  induction fuel with
  | zero => intro dfuel d pending applied t _; rfl
  | succ fuel ih =>
    intro dfuel d pending applied t h
    match dfuel with
    | 0 => simp [onlyDataFrom] at h
    | dfuel + 1 =>
      rw [onlyDataFrom] at h
      by_cases h1 : used ≤ d
      · simp only [scanRecs, if_pos h1]
      · rw [if_neg h1] at h
        by_cases h2 : le16 jd (d + 2) = 0 ∨ used < d + le16 jd (d + 2)
        · rw [if_pos h2] at h; cases h
        · rw [if_neg h2] at h
          by_cases h3 : le16 jd d = REC_DATA
          · rw [if_pos h3] at h
            simp only [scanRecs, if_neg h1]
            rw [if_neg h2, if_pos h3]
            exact ih dfuel (d + szDR) _ applied t h
          · rw [if_neg h3] at h; cases h

/-- **C1 (amended).** If the journal header is valid and the entire used
region is a dangling run of Data Records with no Commit Record, install
applies none of them: it reports zero transactions, leaves every byte
outside the 8-byte journal header unchanged (in particular every block
targeted by the dangling records), and resets `used_bytes` to the header
size.  (When committed transactions precede the dangling run the dangling
records are still never applied, but a committed record may target the
same block, so that block can change — see the counterexample.) -/
theorem C1_dangling_discard (sb : Superblock) (img : Img)
    (hm : le32 img (jstart sb) = JOURNAL_MAGIC)
    (hu : szJH < le32 img (jstart sb + 4))
    (hdang : onlyDataFrom (fun o => img (jstart sb + o))
      (le32 img (jstart sb + 4)) (le32 img (jstart sb + 4)) szJH = true) :
    (journal_install sb img).1 = 0 ∧
    (∀ a, a < jstart sb ∨ jstart sb + szJH ≤ a →
      (journal_install sb img).2 a = img a) ∧
    le32 (journal_install sb img).2 (jstart sb + 4) = szJH ∧
    le32 (journal_install sb img).2 (jstart sb) = JOURNAL_MAGIC := by
  have hinst : journal_install sb img
      = (0, writeBytes img (jstart sb) szJH (jhBuf JOURNAL_MAGIC szJH)) := by
    have hscan := scanRecs_onlyData (fun o => img (jstart sb + o))
      (le32 img (jstart sb + 4)) (le32 img (jstart sb + 4))
      (le32 img (jstart sb + 4)) szJH [] [] 0 hdang
    simp only [journal_install,
      if_neg (show ¬ le32 img (jstart sb) ≠ JOURNAL_MAGIC by simp [hm]),
      if_neg (show ¬ le32 img (jstart sb + 4) ≤ szJH by omega),
      hscan, applyWrites, List.foldl_nil]
  rw [hinst]
  refine ⟨rfl, ?_, ?_, ?_⟩
  · intro a ha
    exact writeBytes_out img (jstart sb) szJH _ a ha
  · have := le32_writeBytes_jhBuf_used img (jstart sb) JOURNAL_MAGIC szJH
    rwa [show szJH % U32 = szJH from rfl] at this
  · have := le32_writeBytes_jhBuf_magic img (jstart sb) JOURNAL_MAGIC szJH
    rwa [show JOURNAL_MAGIC % U32 = JOURNAL_MAGIC from rfl] at this

/-- A journal whose whole used region is one dangling Data Record
targeting block 50 (no Commit). -/
def imgC1w : Img := fun a =>
  if 4096 ≤ a ∧ a < 4104 then jhBuf JOURNAL_MAGIC 4112 (a - 4096)
  else if 4104 ≤ a ∧ a < 8208 then dataRecBuf 50 (fun _ => 7) (a - 4104)
  else freshImg a

/-- Witness for C1 at `imgC1w`: install discards the dangling record,
leaving byte 0 of the targeted block 50 unchanged. -/
theorem C1_witness :
    (journal_install sbF imgC1w).1 = 0 ∧
    (journal_install sbF imgC1w).2 (50 * 4096) = imgC1w (50 * 4096) ∧
    le32 (journal_install sbF imgC1w).2 (jstart sbF + 4) = szJH := by
  have h := C1_dangling_discard sbF imgC1w (by decide) (by decide) (by decide)
  exact ⟨h.1, h.2.1 (50 * 4096) (by decide), h.2.2.1⟩

/-- A journal holding one committed transaction that writes block 50,
followed by a dangling Data Record also targeting block 50. -/
def imgC1 : Img := fun a =>
  if 4096 ≤ a ∧ a < 4104 then jhBuf JOURNAL_MAGIC 8220 (a - 4096)
  else if 4104 ≤ a ∧ a < 8208 then dataRecBuf 50 (fun _ => 7) (a - 4104)
  else if 8208 ≤ a ∧ a < 8212 then commitRecBuf (a - 8208)
  else if 8212 ≤ a ∧ a < 12316 then dataRecBuf 50 (fun _ => 9) (a - 8212)
  else freshImg a

/-- Counterexample to C1 as stated: `imgC1`'s used region ends in a run
of one dangling Data Record (offset 4116, type `REC_DATA`, ending exactly
at `used_bytes = 8220`) targeting block 50 — yet install does NOT leave
block 50 byte-for-byte unchanged, because the committed transaction
before the dangling run also targets block 50. -/
theorem C1_counterexample :
    le16 (fun o => imgC1 (jstart sbF + o)) 4116 = REC_DATA ∧
    le32 (fun o => imgC1 (jstart sbF + o)) 4120 = 50 ∧
    le32 imgC1 (jstart sbF + 4) = 4116 + szDR ∧
    onlyDataFrom (fun o => imgC1 (jstart sbF + o)) 8220 8220 4116 = true ∧
    (journal_install sbF imgC1).2 (50 * 4096) = 7 ∧
    imgC1 (50 * 4096) = 0 :=
  ⟨by decide, by decide, by decide, by decide, by decide, by decide⟩

/-! ### Claim C4: committed transactions are replayed in full, in order -/

/-- The writes described by `m` consecutive Data Records starting at
journal offset `d`: `(block_no, payload)` in recorded order. -/
def runWrites (jd : Nat → Nat) (d m : Nat) : List Write :=
  (List.range m).map fun i =>
    ((le32 jd (d + szDR * i + 4), fun o => jd (d + szDR * i + 8 + o)) : Write)

theorem runWrites_succ (jd : Nat → Nat) (d m : Nat) :
    runWrites jd d (m + 1)
      = ((le32 jd (d + 4), fun o => jd (d + 8 + o)) : Write)
        :: runWrites jd (d + szDR) m := by
  simp only [runWrites, List.range_succ_eq_map, List.map_cons, List.map_map,
    List.cons.injEq]
  refine ⟨by norm_num, ?_⟩
  apply List.map_congr_left
  intro x _
  simp only [Function.comp_apply]
  have h1 : d + szDR * (x + 1) + 4 = d + szDR + szDR * x + 4 := by ring
  have h2 : d + szDR * (x + 1) + 8 = d + szDR + szDR * x + 8 := by ring
  rw [h1, h2]

/-- Scanning one complete transaction: `m` Data Records followed by one
Commit Record ending exactly at `used`.  As long as the pending buffer
does not overflow (`pending.length + m ≤ 16`), the commit appends all
`m` writes, in order, to the applied list and bumps the count. -/
theorem scanRecs_dataRun (jd : Nat → Nat) (used : Nat) :
    ∀ (m fuel d : Nat) (pending applied : List Write) (t : Nat),
    (∀ i, i < m → le16 jd (d + szDR * i) = REC_DATA
      ∧ le16 jd (d + szDR * i + 2) = szDR) →
    le16 jd (d + szDR * m) = REC_COMMIT →
    le16 jd (d + szDR * m + 2) = szCR →
    used = d + szDR * m + szCR →
    pending.length + m ≤ 16 →
    m + 2 ≤ fuel →
    scanRecs jd used fuel d pending applied t
      = (t + 1, applied ++ (pending ++ runWrites jd d m)) := by
  intro m
  induction m with
  | zero =>
    intro fuel d pending applied t _ hc1 hc2 hused _ hfuel
    match fuel, hfuel with
    | fuel + 2, _ =>
      simp only [Nat.mul_zero, Nat.add_zero] at hc1 hc2 hused
      have hd : ¬ used ≤ d := by
        rw [hused]; simp only [szCR]; omega
      have hg : ¬ (le16 jd (d + 2) = 0 ∨ used < d + le16 jd (d + 2)) := by
        rw [hc2, hused]
        simp only [szCR]
        omega
      have hnd : ¬ le16 jd d = REC_DATA := by
        rw [hc1]; simp [REC_COMMIT, REC_DATA]
      simp only [scanRecs, if_neg hd]
      rw [if_neg hg, if_neg hnd, if_pos hc1]
      have hstop : used ≤ d + szCR := by omega
      simp only [scanRecs, if_pos hstop]
      simp [runWrites]
  | succ m ih =>
    intro fuel d pending applied t hrec hc1 hc2 hused hlen hfuel
    match fuel, hfuel with
    | fuel + 1, _ =>
      obtain ⟨ht0, hs0⟩ := hrec 0 (Nat.succ_pos m)
      simp only [Nat.mul_zero, Nat.add_zero] at ht0 hs0
      have hd : ¬ used ≤ d := by
        rw [hused]; simp only [szDR, szCR]; omega
      have hg : ¬ (le16 jd (d + 2) = 0 ∨ used < d + le16 jd (d + 2)) := by
        rw [hs0, hused]; simp only [szDR, szCR]; omega
      have hlt : pending.length < 16 := by omega
      simp only [scanRecs, if_neg hd]
      rw [if_neg hg, if_pos ht0, if_pos hlt]
      have hnext := ih fuel (d + szDR)
        (pending ++ [((le32 jd (d + 4), fun o => jd (d + 8 + o)) : Write)])
        applied t
        (by
          intro i hi
          obtain ⟨a1, a2⟩ := hrec (i + 1) (by omega)
          constructor
          · have harg : d + szDR + szDR * i = d + szDR * (i + 1) := by ring
            rw [harg]; exact a1
          · have harg : d + szDR + szDR * i + 2 = d + szDR * (i + 1) + 2 := by
              ring
            rw [harg]; exact a2
        )
        (by
          have harg : d + szDR + szDR * m = d + szDR * (m + 1) := by ring
          rw [harg]; exact hc1)
        (by
          have harg : d + szDR + szDR * m + 2 = d + szDR * (m + 1) + 2 := by
            ring
          rw [harg]; exact hc2)
        (by rw [hused]; ring)
        (by simp only [List.length_append, List.length_cons,
              List.length_nil]; omega)
        (by omega)
      rw [hnext, runWrites_succ]
      simp

/-- Install on a log holding exactly one complete transaction with
`m ≤ 16` Data Records: every record is applied, in order, and the header
is reset.  (Shared helper for the claims about committed replay.) -/
theorem install_dataRun_replay (sb : Superblock) (img : Img) (m : Nat)
    (hm : le32 img (jstart sb) = JOURNAL_MAGIC)
    (hmle : m ≤ 16)
    (hrec : ∀ i, i < m →
      le16 (fun o => img (jstart sb + o)) (szJH + szDR * i) = REC_DATA
      ∧ le16 (fun o => img (jstart sb + o)) (szJH + szDR * i + 2) = szDR)
    (hc1 : le16 (fun o => img (jstart sb + o)) (szJH + szDR * m) = REC_COMMIT)
    (hc2 : le16 (fun o => img (jstart sb + o)) (szJH + szDR * m + 2) = szCR)
    (hused : le32 img (jstart sb + 4) = szJH + szDR * m + szCR) :
    journal_install sb img
      = (1, writeBytes
          (applyWrites img (runWrites (fun o => img (jstart sb + o)) szJH m))
          (jstart sb) szJH (jhBuf JOURNAL_MAGIC szJH)) := by
  have hscan := scanRecs_dataRun (fun o => img (jstart sb + o))
    (le32 img (jstart sb + 4)) m (le32 img (jstart sb + 4)) szJH [] [] 0
    hrec hc1 hc2 hused (by simpa using hmle)
    (by rw [hused]; simp only [szJH, szDR, szCR]; omega)
  simp only [journal_install,
    if_neg (show ¬ le32 img (jstart sb) ≠ JOURNAL_MAGIC by simp [hm]),
    if_neg (show ¬ le32 img (jstart sb + 4) ≤ szJH by
      rw [hused]; simp only [szJH, szDR, szCR]; omega),
    hscan]
  simp

/-- **C4 (amended).** For a log consisting of one complete transaction —
`m` Data Records followed by a Commit Record — with `m ≤ 16`, install
applies every one of the `m` records to the Block Store in recorded
order and resets the header.  The bound 16 is real: the pending buffer
holds at most 16 records per transaction and further records of the same
transaction are silently dropped (see the counterexample with 17); a
transaction built by `journal_create` has at most 4 records and is never
truncated. -/
theorem C4_committed_replay (sb : Superblock) (img : Img) (m : Nat)
    (hm : le32 img (jstart sb) = JOURNAL_MAGIC)
    (hmle : m ≤ 16)
    (hrec : ∀ i, i < m →
      le16 (fun o => img (jstart sb + o)) (szJH + szDR * i) = REC_DATA
      ∧ le16 (fun o => img (jstart sb + o)) (szJH + szDR * i + 2) = szDR)
    (hc1 : le16 (fun o => img (jstart sb + o)) (szJH + szDR * m) = REC_COMMIT)
    (hc2 : le16 (fun o => img (jstart sb + o)) (szJH + szDR * m + 2) = szCR)
    (hused : le32 img (jstart sb + 4) = szJH + szDR * m + szCR) :
    journal_install sb img
      = (1, writeBytes
          (applyWrites img (runWrites (fun o => img (jstart sb + o)) szJH m))
          (jstart sb) szJH (jhBuf JOURNAL_MAGIC szJH)) :=
  install_dataRun_replay sb img m hm hmle hrec hc1 hc2 hused

/-- A journal holding one transaction with two Data Records (blocks 50
and 51) and a Commit. -/
def imgC4w : Img := fun a =>
  if 4096 ≤ a ∧ a < 4104 then jhBuf JOURNAL_MAGIC 8220 (a - 4096)
  else if 4104 ≤ a ∧ a < 12312 then
    dataRecBuf (50 + (a - 4104) / 4104) (fun _ => 7) ((a - 4104) % 4104)
  else if 12312 ≤ a ∧ a < 12316 then commitRecBuf (a - 12312)
  else freshImg a

/-- Witness for C4 (amended) at a two-record transaction. -/
theorem C4_witness : (journal_install sbF imgC4w).1 = 1 :=
  congrArg Prod.fst (C4_committed_replay sbF imgC4w 2 (by decide) (by decide)
    (by decide) (by decide) (by decide) (by decide))

/-- A journal holding one committed transaction with 17 Data Records
targeting blocks 20..36 (`used_bytes` is trusted from the header, so the
region may exceed the nominal 16-block capacity). -/
def imgC4 : Img := fun a =>
  if 4096 ≤ a ∧ a < 4104 then jhBuf JOURNAL_MAGIC 69780 (a - 4096)
  else if 4104 ≤ a ∧ a < 73872 then
    dataRecBuf (20 + (a - 4104) / 4104) (fun _ => 5) ((a - 4104) % 4104)
  else if 73872 ≤ a ∧ a < 73876 then commitRecBuf (a - 73872)
  else 0

/-- Counterexample to C4 as stated: a complete transaction with 17 Data
Records (all followed by a Commit) is silently truncated — the first 16
records (blocks 20..35) are applied but the 17th (block 36) is not,
even though its record is part of the committed transaction. -/
theorem C4_counterexample :
    (journal_install sbF imgC4).1 = 1 ∧
    le16 (fun o => imgC4 (jstart sbF + o)) (szJH + szDR * 16) = REC_DATA ∧
    le32 (fun o => imgC4 (jstart sbF + o)) (szJH + szDR * 16 + 4) = 36 ∧
    le16 (fun o => imgC4 (jstart sbF + o)) (szJH + szDR * 17) = REC_COMMIT ∧
    (journal_install sbF imgC4).2 (35 * 4096) = 5 ∧
    (journal_install sbF imgC4).2 (36 * 4096) = 0 ∧
    imgC4 (36 * 4096) = 0 :=
  ⟨by decide, by decide, by decide, by decide, by decide, by decide, by decide⟩

/-! ### Claim C6: block writes stay within the device -/

/-- Frame lemma for a list of buffered block writes: an address outside
every written block's range is untouched. -/
theorem applyWrites_out (ws : List Write) :
    ∀ (img : Img) (a : Nat),
    (∀ w ∈ ws, a < blockAddr w.1 ∨ blockAddr w.1 + BLOCK_SIZE ≤ a) →
    applyWrites img ws a = img a := by
  induction ws with
  | nil => intro img a _; rfl
  | cons w ws ih =>
    intro img a h
    have h1 : applyWrites img (w :: ws) a
        = applyWrites (write_block img w.1 w.2) ws a := rfl
    rw [h1, ih _ a (fun w' hw' => h w' (List.mem_cons_of_mem _ hw'))]
    exact writeBytes_out img (blockAddr w.1) BLOCK_SIZE w.2 a
      (h w (List.mem_cons_self _ _))

/-- Every write the scan buffers comes from a Data Record inside the
used region: any predicate that holds of the `(block_no, payload)` pair
read at every Data-tagged offset of the used region (and of the writes
already buffered) holds of every write the scan returns, whatever the
number of transactions or records per transaction. -/
theorem scanRecs_writes_blocks (jd : Nat → Nat) (used : Nat)
    (P : Write → Prop)
    (hrec : ∀ off, szJH ≤ off → off < used → le16 jd off = REC_DATA →
      P ((le32 jd (off + 4), fun o => jd (off + 8 + o)) : Write)) :
    ∀ (fuel d : Nat) (pending applied : List Write) (t : Nat),
    szJH ≤ d →
    (∀ w ∈ pending, P w) → (∀ w ∈ applied, P w) →
    ∀ w ∈ (scanRecs jd used fuel d pending applied t).2, P w := by
  intro fuel
  induction fuel with
  | zero =>
    intro d pending applied t _ _ happ w hw
    exact happ w hw
  | succ fuel ih =>
    intro d pending applied t hd hpen happ w hw
    by_cases h1 : used ≤ d
    · simp only [scanRecs, if_pos h1] at hw
      exact happ w hw
    simp only [scanRecs, if_neg h1] at hw
    by_cases h2 : le16 jd (d + 2) = 0 ∨ used < d + le16 jd (d + 2)
    · rw [if_pos h2] at hw
      exact happ w hw
    rw [if_neg h2] at hw
    by_cases h3 : le16 jd d = REC_DATA
    · rw [if_pos h3] at hw
      by_cases h4 : pending.length < 16
      · rw [if_pos h4] at hw
        refine ih (d + szDR) _ applied t
          (by simp only [szJH] at hd ⊢; simp only [szDR]; omega)
          ?_ happ w hw
        intro w' hw'
        rcases List.mem_append.mp hw' with h | h
        · exact hpen w' h
        · have hw'' : w' = ((le32 jd (d + 4), fun o => jd (d + 8 + o)) : Write) := by
            simpa using h
          rw [hw'']
          exact hrec d hd (by omega) h3
      · rw [if_neg h4] at hw
        exact ih (d + szDR) pending applied t
          (by simp only [szJH] at hd ⊢; simp only [szDR]; omega)
          hpen happ w hw
    rw [if_neg h3] at hw
    by_cases h5 : le16 jd d = REC_COMMIT
    · rw [if_pos h5] at hw
      refine ih (d + szCR) [] (applied ++ pending) (t + 1)
        (by simp only [szJH] at hd ⊢; simp only [szCR]; omega)
        (fun w' hw' => absurd hw' (List.not_mem_nil w')) ?_ w hw
      intro w' hw'
      rcases List.mem_append.mp hw' with h | h
      · exact happ w' h
      · exact hpen w' h
    · rw [if_neg h5] at hw
      exact happ w hw

/-- **C6 (amended).** `write_block` itself checks nothing: install
writes exactly the `block_no` stored in each Data Record it applies.
Consequently the property claimed holds only conditionally: for any log
in which every Data Record inside the used region names a block below
`total_blocks` (as every record `journal_create` writes against a sane
superblock does) and whose journal header itself lies inside the
device, every byte install modifies lies inside the device
`[0, total_blocks · block_size)` — whatever the number of committed
transactions or records per transaction; an out-of-range block number is
written out-of-range without any error (see the counterexample). -/
theorem C6_writes_within_bounds (sb : Superblock) (img : Img)
    (hblk : ∀ off, off < le32 img (jstart sb + 4) → szJH ≤ off →
      le16 (fun o => img (jstart sb + o)) off = REC_DATA →
      le32 (fun o => img (jstart sb + o)) (off + 4) < TOTAL_BLOCKS)
    (hjs : jstart sb + szJH ≤ TOTAL_BLOCKS * BLOCK_SIZE) :
    ∀ a, TOTAL_BLOCKS * BLOCK_SIZE ≤ a →
      (journal_install sb img).2 a = img a := by
  intro a ha
  by_cases hmg : le32 img (jstart sb) ≠ JOURNAL_MAGIC
  · simp only [journal_install, if_pos hmg]
  · by_cases huse : le32 img (jstart sb + 4) ≤ szJH
    · simp only [journal_install, if_neg hmg, if_pos huse]
    · simp only [journal_install, if_neg hmg, if_neg huse]
      rw [writeBytes_out _ _ _ _ a (Or.inr (by
        have hTB : TOTAL_BLOCKS * BLOCK_SIZE = 348160 := rfl
        rw [hTB] at ha hjs
        omega))]
      apply applyWrites_out
      intro w hw
      right
      have hP := scanRecs_writes_blocks (fun o => img (jstart sb + o))
        (le32 img (jstart sb + 4)) (fun w => w.1 < TOTAL_BLOCKS)
        (fun off hoff1 hoff2 hoff3 => hblk off hoff2 hoff1 hoff3)
        (le32 img (jstart sb + 4)) szJH [] [] 0 (Nat.le_refl szJH)
        (fun w' hw' => absurd hw' (List.not_mem_nil w'))
        (fun w' hw' => absurd hw' (List.not_mem_nil w'))
        w hw
      have hT : TOTAL_BLOCKS = 85 := rfl
      rw [hT] at hP
      have hba : blockAddr w.1 = w.1 * 4096 := by
        simp only [blockAddr, BLOCK_SIZE]
        exact Nat.mod_eq_of_lt (by simp only [U32]; omega)
      rw [hba]
      have hTB : TOTAL_BLOCKS * BLOCK_SIZE = 348160 := rfl
      rw [hTB] at ha
      simp only [BLOCK_SIZE]
      omega

/-- A journal holding one committed Data Record whose stored block
number is 100, beyond the 85-block device. -/
def imgC6 : Img := fun a =>
  if 4096 ≤ a ∧ a < 4104 then jhBuf JOURNAL_MAGIC 4116 (a - 4096)
  else if 4104 ≤ a ∧ a < 8208 then dataRecBuf 100 (fun _ => 7) (a - 4104)
  else if 8208 ≤ a ∧ a < 8212 then commitRecBuf (a - 8208)
  else freshImg a

/-- Counterexample to C6 as stated: install applies a committed Data
Record with `block_no = 100 ≥ total_blocks = 85` by writing at file
offset `100·4096`, outside the device, without reporting any error (the
call still counts one installed transaction). -/
theorem C6_counterexample :
    (journal_install sbF imgC6).1 = 1 ∧
    le32 (fun o => imgC6 (jstart sbF + o)) (szJH + 4) = 100 ∧
    TOTAL_BLOCKS ≤ 100 ∧
    TOTAL_BLOCKS * BLOCK_SIZE ≤ 100 * 4096 ∧
    (journal_install sbF imgC6).2 (100 * 4096) = 7 ∧
    imgC6 (100 * 4096) = 0 :=
  ⟨by decide, by decide, by decide, by decide, by decide, by decide⟩

/-- Boolean check of `p` over `[lo, lo + 2^d)` with logarithmic
recursion depth (so the kernel can evaluate it without deep recursion). -/
def ballPow (p : Nat → Bool) : Nat → Nat → Bool
  | 0, lo => p lo
  | d + 1, lo => ballPow p d lo && ballPow p d (lo + 2 ^ d)

theorem ballPow_true (p : Nat → Bool) :
    ∀ (d lo : Nat), ballPow p d lo = true →
    ∀ i, lo ≤ i → i < lo + 2 ^ d → p i = true := by
  intro d
  induction d with
  | zero =>
    intro lo h i h1 h2
    have hi : i = lo := by
      simp only [Nat.pow_zero] at h2
      omega
    rw [hi]
    exact h
  | succ d ih =>
    intro lo h i h1 h2
    rw [ballPow, Bool.and_eq_true] at h
    by_cases hlt : i < lo + 2 ^ d
    · exact ih lo h.1 i h1 hlt
    · have hp : 2 ^ (d + 1) = 2 ^ d + 2 ^ d := by
        rw [Nat.pow_succ]
        omega
      exact ih (lo + 2 ^ d) h.2 i (by omega) (by omega)

/-- Witness for C6 (amended) at the in-range two-record transaction:
the byte just past the device end is untouched. -/
theorem C6_witness : (journal_install sbF imgC4w).2 348160 = imgC4w 348160 :=
  C6_writes_within_bounds sbF imgC4w
    (by
      have hball : ballPow (fun off => decide
          (off < le32 imgC4w (jstart sbF + 4) → szJH ≤ off →
            le16 (fun o => imgC4w (jstart sbF + o)) off = REC_DATA →
            le32 (fun o => imgC4w (jstart sbF + o)) (off + 4) < TOTAL_BLOCKS))
          14 0 = true := by decide
      intro off h1 h2 h3
      have h14 : (2 : Nat) ^ 14 = 16384 := by norm_num
      have hu : le32 imgC4w (jstart sbF + 4) = 8220 := by decide
      rw [hu] at h1
      have hb := ballPow_true _ 14 0 hball off (Nat.zero_le _) (by omega)
      exact of_decide_eq_true hb (by rw [hu]; omega) h2 h3)
    (by decide) 348160 (by decide)

/-! ### Claim C3: round-trip content fidelity -/

/-- The bytes of the name `"a.txt"`. -/
def nameATxt : List Nat := [97, 46, 116, 120, 116]

/-- `create("a.txt")` on the fresh image (at some fixed clock value). -/
def c3Create : CResult × Img := journal_create sbF freshImg nameATxt 1700000000

/-- `install()` after `create("a.txt")`. -/
def c3Install : Nat × Img := journal_install sbF c3Create.2

/-- **C3.** Round-trip content fidelity on the freshly formatted image:
`create("a.txt")` then `install()` yields on-disk state where the root
directory block (block 21, named by inode 0's first direct pointer)
contains exactly one entry named `"a.txt"` — slot 0, whose stored inode
number 1 was free in the inode bitmap before the create — and inode 1's
record in the inode table has type = file, size = 0, and all 8 direct
pointers = 0. -/
theorem C3_roundtrip :
    Nat.testBit (freshImg (blockAddr sbF.inode_bitmap + 0)) 1 = false ∧
    c3Create.1 = .ok 1 ∧
    c3Install.1 = 1 ∧
    le32 (fun o => c3Install.2 (blockAddr sbF.inode_start + o)) 8 = 21 ∧
    le32 (fun o => c3Install.2 (blockAddr 21 + o)) 0 = 1 ∧
    nameEq (fun o => c3Install.2 (blockAddr 21 + o)) (32 * 0 + 4) nameATxt
      = true ∧
    (∀ i, i < 128 → 0 < i →
      nameEq (fun o => c3Install.2 (blockAddr 21 + o)) (32 * i + 4) nameATxt
        = false) ∧
    le16 (fun o => c3Install.2 (blockAddr sbF.inode_start + o)) (128 * 1)
      = INODE_FILE ∧
    le32 (fun o => c3Install.2 (blockAddr sbF.inode_start + o)) (128 * 1 + 4)
      = 0 ∧
    (∀ k, k < 8 →
      le32 (fun o => c3Install.2 (blockAddr sbF.inode_start + o))
        (128 * 1 + 8 + 4 * k) = 0) :=
  ⟨by decide, by decide, by decide, by decide, by decide, by decide,
   by decide, by decide, by decide, by decide⟩

/-! ### Claim C10: the empty name creates an invisible entry -/

/-- `create("")` on the fresh image. -/
def c10Create : CResult × Img := journal_create sbF freshImg [] 1700000000

/-- `install()` after `create("")`. -/
def c10Install : Nat × Img := journal_install sbF c10Create.2

/-- **C10.** The empty name (length 0) passes the 27-byte limit; the
staged transaction allocates inode 1, sets its bitmap bit and its type
to file, and writes directory slot 0 with inode number 1 but a name whose
first byte is zero.  After install, every slot's first name byte is zero,
so every slot scan (free-slot search, duplicate check, highest-occupied
computation) treats the entry as unused — the allocated inode is
reachable from no visible directory entry, and the root inode's size is
never updated. -/
theorem C10_empty_name :
    cstrlen [] = 0 ∧
    c10Create.1 = .ok 1 ∧
    c10Install.1 = 1 ∧
    Nat.testBit (c10Install.2 (blockAddr sbF.inode_bitmap + 0)) 1 = true ∧
    le16 (fun o => c10Install.2 (blockAddr sbF.inode_start + o)) (128 * 1)
      = INODE_FILE ∧
    le32 (fun o => c10Install.2 (blockAddr 21 + o)) 0 = 1 ∧
    c10Install.2 (blockAddr 21 + 4) = 0 ∧
    (∀ i, i < 128 → c10Install.2 (blockAddr 21 + 32 * i + 4) = 0) ∧
    find_free_dirent (fun o => c10Install.2 (blockAddr 21 + o)) [98]
      = .slot 0 ∧
    get_highest_dirent (fun o => c10Install.2 (blockAddr 21 + o)) = none ∧
    le32 (fun o => c10Install.2 (blockAddr sbF.inode_start + o)) 4 = 0 :=
  ⟨by decide, by decide, by decide, by decide, by decide, by decide,
   by decide, by decide, by decide, by decide, by decide⟩

/-! ### Claim C9: the bitmap/inode-type agreement invariant

The commands run against the `sbF` layout (the formatter's):
journal = blocks 1..16 (`[4096, 69632)`), inode bitmap = block 17
(`69632`), inode table = blocks 19 (`77824`) and 20 (`81920`), root
directory = block 21 (`86016`). -/

/-- A CLI command: `create <name>` (with the value `time(NULL)` returns
during it) or `install`. -/
inductive Cmd where
  | create (fname : List Nat) (now : Nat)
  | install

/-- One command executed against the image. -/
def step (img : Img) : Cmd → Img
  | .create fname now => (journal_create sbF img fname now).2
  | .install => (journal_install sbF img).2

/-- A whole command sequence. -/
def runCmds (img : Img) (cs : List Cmd) : Img := cs.foldl step img

/-- Address of inode `i`'s record in the inode table. -/
def inodeAddr (i : Nat) : Nat :=
  if i < INODES_PER_BLOCK then 77824 + 128 * i
  else 81920 + 128 * (i - INODES_PER_BLOCK)

/-- The invariant: inode-bitmap bit `i` agrees with inode `i`'s type
field (bit set iff the type is not `INODE_FREE`). -/
def InvBT (img : Img) : Prop :=
  ∀ i, i < 64 →
    (Nat.testBit (img (69632 + i / 8)) (i % 8) = true
      ↔ le16 img (inodeAddr i) ≠ INODE_FREE)

/-- Inode 0's first direct pointer names the root directory block 21. -/
def RootPtr (img : Img) : Prop := le32 img 77832 = 21

/-- The journal is uninitialized or freshly reset. -/
def FreshJournal (img : Img) : Prop :=
  le32 img 4096 ≠ JOURNAL_MAGIC ∨ le32 img 4100 = szJH

/-- Serialized length of one create-transaction: 4 data records when the
new inode lives in the second inode-table block, 3 otherwise, plus the
commit record. -/
def txLen (f : Nat) : Nat :=
  if INODES_PER_BLOCK ≤ f then 4 * szDR + szCR else 3 * szDR + szCR

/-- The serialized bytes of the transaction `journal_create` builds from
metadata snapshot `m` for name `fname` at clock `now`, allocating inode
`f` and directory slot `s` (relative to the transaction start). -/
def txBytes (m : Img) (fname : List Nat) (now f s : Nat) : Nat → Nat :=
  let bm' := setBitBuf (fun o => m (69632 + o)) f
  let b0 : Nat → Nat := fun o => m (77824 + o)
  let b1 : Nat → Nat := fun o => m (81920 + o)
  let dblk : Nat → Nat := fun o => m (86016 + o)
  let b0a := if INODES_PER_BLOCK ≤ f then b0 else updInode b0 f now
  let b1' := if INODES_PER_BLOCK ≤ f then
      updInode b1 (f - INODES_PER_BLOCK) now else b1
  let dblk' := updDirent dblk s f fname
  let b0' := match get_highest_dirent dblk' with
    | some h => updRootSize b0a ((h + 1) * 32)
    | none => b0a
  fun o =>
    if INODES_PER_BLOCK ≤ f then
      if o < szDR then dataRecBuf 17 bm' o
      else if o < 2 * szDR then dataRecBuf 19 b0' (o - szDR)
      else if o < 3 * szDR then dataRecBuf 20 b1' (o - 2 * szDR)
      else if o < 4 * szDR then dataRecBuf 21 dblk' (o - 3 * szDR)
      else commitRecBuf (o - 4 * szDR)
    else
      if o < szDR then dataRecBuf 17 bm' o
      else if o < 2 * szDR then dataRecBuf 19 b0' (o - szDR)
      else if o < 3 * szDR then dataRecBuf 21 dblk' (o - 2 * szDR)
      else commitRecBuf (o - 3 * szDR)

/-- The journal bytes of `img` starting at journal-relative offset `pos`
encode the transactions with parameters `ps`, all built from metadata
snapshot `m` with the fixed inode `f` and slot `s`. -/
def ContentAt (m : Img) (f s : Nat) (img : Img) :
    Nat → List (List Nat × Nat) → Prop
  | _, [] => True
  | pos, p :: ps =>
      (∀ o, o < txLen f → img (4096 + pos + o) = txBytes m p.1 p.2 f s o)
      ∧ ContentAt m f s img (pos + txLen f) ps

/-- Run a list of creates (parameters only; results discarded). -/
def applyTxs (img : Img) (ts : List (List Nat × Nat)) : Img :=
  ts.foldl (fun im p => (journal_create sbF im p.1 p.2).2) img

/-- Every create in the sequence succeeded. -/
def TxsOk : Img → List (List Nat × Nat) → Prop
  | _, [] => True
  | im, p :: ps =>
      (∃ g, (journal_create sbF im p.1 p.2).1 = .ok g)
      ∧ TxsOk (journal_create sbF im p.1 p.2).2 ps

/-- A create either succeeds or leaves the image untouched. -/
theorem journal_create_snd_or_ok (sb : Superblock) (img : Img)
    (fname : List Nat) (now : Nat) :
    (∃ g, (journal_create sb img fname now).1 = .ok g) ∨
    (journal_create sb img fname now).2 = img := by
  rw [journal_create]
  by_cases h27 : 27 < cstrlen fname
  · rw [if_pos h27]; right; rfl
  rw [if_neg h27]
  by_cases hcap : JCAP < ((if le32 img (jstart sb) ≠ JOURNAL_MAGIC then szJH
      else le32 img (jstart sb + 4)) + NEEDED) % U32
  · rw [if_pos hcap]; right; rfl
  rw [if_neg hcap]
  rcases hf : findFreeInode (fun o => img (blockAddr sb.inode_bitmap + o))
    with _ | f
  · simp only [hf]; right; trivial
  simp only [hf]
  rcases hd : find_free_dirent
      (fun o => img (blockAddr
        (le32 (fun o => img (blockAddr sb.inode_start + o)) 8) + o))
      fname with s | _ | _ <;> simp only [hd]
  · left; exact ⟨f, rfl⟩
  · right; trivial
  · right; trivial

theorem findFreeInodeAux_range (bm : Nat → Nat) :
    ∀ n i f, findFreeInodeAux bm n i = some f → i ≤ f ∧ f < i + n := by
  intro n
  induction n with
  | zero => intro i f h; cases h
  | succ n ih =>
    intro i f h
    rw [findFreeInodeAux] at h
    by_cases hb : Nat.testBit (bm (i / 8)) (i % 8) = false
    · rw [if_pos hb] at h
      cases h
      omega
    · rw [if_neg hb] at h
      have := ih (i + 1) f h
      omega

/-- The allocated inode is in `[1, 64)`. -/
theorem findFreeInode_range (bm : Nat → Nat) (f : Nat)
    (h : findFreeInode bm = some f) : 1 ≤ f ∧ f < 64 := by
  have := findFreeInodeAux_range bm 63 1 f h
  omega

/-- The returned free slot is the lowest empty slot, hence independent
of the requested name. -/
theorem find_free_dirent_slot_unique (blk : Nat → Nat)
    (n1 n2 : List Nat) (s1 s2 : Nat)
    (h1 : find_free_dirent blk n1 = .slot s1)
    (h2 : find_free_dirent blk n2 = .slot s2) : s1 = s2 := by
  obtain ⟨_, e2a, _⟩ := ffdAux_char blk n1 128 0 none (by omega)
    (by intro _ j hj; omega) (by intro s h; cases h)
  obtain ⟨_, e2b, _⟩ := ffdAux_char blk n2 128 0 none (by omega)
    (by intro _ j hj; omega) (by intro s h; cases h)
  obtain ⟨_, _, g3a, g4a⟩ := e2a s1 h1
  obtain ⟨_, _, g3b, g4b⟩ := e2b s2 h2
  by_contra hne
  rcases Nat.lt_or_ge s1 s2 with h | h
  · exact g4b s1 h g3a
  · exact g4a s2 (by omega) g3b

theorem le32_shift (g : Nat → Nat) (c x : Nat) :
    le32 (fun o => g (c + o)) x = le32 g (c + x) := by
  simp [le32, Nat.add_assoc]

theorem le16_shift (g : Nat → Nat) (c x : Nat) :
    le16 (fun o => g (c + o)) x = le16 g (c + x) := by
  simp [le16, Nat.add_assoc]

/-- Metadata block buffers are unchanged by anything that only writes
the journal region. -/
theorem buf_eq_of_frame (img img₀ : Img) (c : Nat) (hc : 69632 ≤ c)
    (hfr : ∀ a, a < 4096 ∨ 69632 ≤ a → img a = img₀ a) :
    (fun o => img (c + o)) = fun o => img₀ (c + o) := by
  funext o
  exact hfr (c + o) (Or.inr (by omega))

/-- `txBytes` depends only on the four metadata block buffers. -/
theorem txBytes_congr (m1 m2 : Img) (fname : List Nat) (now f s : Nat)
    (h17 : (fun o => m1 (69632 + o)) = fun o => m2 (69632 + o))
    (h19 : (fun o => m1 (77824 + o)) = fun o => m2 (77824 + o))
    (h20 : (fun o => m1 (81920 + o)) = fun o => m2 (81920 + o))
    (h21 : (fun o => m1 (86016 + o)) = fun o => m2 (86016 + o)) :
    txBytes m1 fname now f s = txBytes m2 fname now f s := by
  simp only [txBytes]
  rw [h17, h19, h20, h21]

/-- Byte-precise description of a successful create against the `sbF`
layout: outside the header and the appended transaction nothing changes;
the header is rewritten with the advanced cursor; the appended bytes are
exactly `txBytes` of the current metadata snapshot. -/
theorem createdImg_bytes (img : Img) (fname : List Nat) (now f s : Nat)
    (hu8 : szJH ≤ usedOf sbF img)
    (hcap : usedOf sbF img + NEEDED ≤ JCAP)
    (hroot : le32 img 77832 = 21) :
    (∀ a, (a < 4096 ∨ (4104 ≤ a ∧ a < 4096 + usedOf sbF img)
        ∨ 4096 + usedOf sbF img + txLen f ≤ a) →
      createdImg sbF img fname now f s a = img a) ∧
    (∀ o, o < 8 →
      createdImg sbF img fname now f s (4096 + o)
        = jhBuf JOURNAL_MAGIC (usedOf sbF img + txLen f) o) ∧
    (∀ o, o < txLen f →
      createdImg sbF img fname now f s (4096 + usedOf sbF img + o)
        = txBytes img fname now f s o) := by
  have hU : U32 = 4294967296 := rfl
  have hD : szDR = 4104 := rfl
  have hR : szCR = 4 := rfl
  have hH : szJH = 8 := rfl
  have hC : JCAP = 65536 := rfl
  have hN : NEEDED = 16420 := rfl
  have hjs : jstart sbF = 4096 := rfl
  have hA17 : blockAddr sbF.inode_bitmap = 69632 := rfl
  have hA19 : blockAddr sbF.inode_start = 77824 := rfl
  have hA20 : blockAddr ((sbF.inode_start + 1) % U32) = 81920 := rfl
  have hA21 : blockAddr 21 = 86016 := rfl
  have hS17 : sbF.inode_bitmap = 17 := rfl
  have hS19 : sbF.inode_start = 19 := rfl
  have hS20 : (sbF.inode_start + 1) % U32 = 20 := rfl
  have hS20b : ((19 : Nat) + 1) % U32 = 20 := rfl
  have hA17b : blockAddr 17 = 69632 := rfl
  have hA19b : blockAddr 19 = 77824 := rfl
  have hA20b : blockAddr 20 = 81920 := rfl
  rw [hH] at hu8
  rw [hC, hN] at hcap
  set u := usedOf sbF img with hudef
  have hrdb : le32 (fun o => img (77824 + o)) 8 = 21 := by
    rw [le32_shift]; exact hroot
  have keyIn : ∀ (im : Img) (off len : Nat) (buf : Nat → Nat) (a : Nat),
      off + len ≤ 65536 → 4096 + off ≤ a → a < 4096 + off + len →
      writeBytes im ((4096 + off) % U32) len buf a = buf (a - (4096 + off)) := by
    intro im off len buf a h1 h2 h3
    have hpos : (4096 + off) % U32 = 4096 + off := by
      rw [hU]; exact Nat.mod_eq_of_lt (by omega)
    rw [hpos]
    exact writeBytes_in im _ len buf a h2 (by omega)
  have keyOut : ∀ (im : Img) (off len : Nat) (buf : Nat → Nat) (a : Nat),
      off + len ≤ 65536 → (a < 4096 + off ∨ 4096 + off + len ≤ a) →
      writeBytes im ((4096 + off) % U32) len buf a = im a := by
    intro im off len buf a h1 h2
    have hpos : (4096 + off) % U32 = 4096 + off := by
      rw [hU]; exact Nat.mod_eq_of_lt (by omega)
    rw [hpos]
    exact writeBytes_out im _ len buf a (by omega)
  have e1 : (u + szDR) % U32 = u + szDR := by
    rw [hU, hD]; exact Nat.mod_eq_of_lt (by omega)
  have e2 : (u + szDR + szDR) % U32 = u + szDR + szDR := by
    rw [hU, hD]; exact Nat.mod_eq_of_lt (by omega)
  have e3 : (u + szDR + szDR + szDR) % U32 = u + szDR + szDR + szDR := by
    rw [hU, hD]; exact Nat.mod_eq_of_lt (by omega)
  have e4 : (u + szDR + szDR + szDR + szDR) % U32
      = u + szDR + szDR + szDR + szDR := by
    rw [hU, hD]; exact Nat.mod_eq_of_lt (by omega)
  have e5 : (u + szDR + szDR + szDR + szCR) % U32
      = u + szDR + szDR + szDR + szCR := by
    rw [hU, hD, hR]; exact Nat.mod_eq_of_lt (by omega)
  have e6 : (u + szDR + szDR + szDR + szDR + szCR) % U32
      = u + szDR + szDR + szDR + szDR + szCR := by
    rw [hU, hD, hR]; exact Nat.mod_eq_of_lt (by omega)
  by_cases hb : INODES_PER_BLOCK ≤ f
  · have hl : txLen f = 16420 := by rw [txLen, if_pos hb, hD, hR]
    simp only [createdImg, write_journal_bytes, hjs, hA17, hA19, hA20,
      hS17, hS19, hS20, hS20b, hA17b, hA19b, hA20b, decide_eq_true_eq,
      hb, if_true, hrdb, hA21, ← hudef, Nat.mod_add_mod,
      e1, e2, e3, e4, e5, e6, hl]
    refine ⟨?_, ?_, ?_⟩
    · intro a ha
      rw [keyOut _ 0 szJH _ _ (by rw [hH]; omega)
          (by rw [hH]; simp only [Nat.add_zero]; omega),
        keyOut _ (u + szDR + szDR + szDR + szDR) szCR _ _
          (by rw [hD, hR]; omega) (by rw [hD, hR]; omega),
        keyOut _ (u + szDR + szDR + szDR) szDR _ _
          (by rw [hD]; omega) (by rw [hD]; omega),
        keyOut _ (u + szDR + szDR) szDR _ _
          (by rw [hD]; omega) (by rw [hD]; omega),
        keyOut _ (u + szDR) szDR _ _
          (by rw [hD]; omega) (by rw [hD]; omega),
        keyOut _ u szDR _ _ (by rw [hD]; omega) (by rw [hD]; omega)]
    · intro o ho
      rw [keyIn _ 0 szJH _ _ (by rw [hH]; omega)
          (by simp only [Nat.add_zero]; omega)
          (by rw [hH]; simp only [Nat.add_zero]; omega)]
      have : 4096 + o - (4096 + 0) = o := by omega
      rw [this]
      have : u + szDR + szDR + szDR + szDR + szCR = u + 16420 := by
        rw [hD, hR]
      rw [this]
    · intro o ho
      simp only [txBytes, decide_eq_true_eq, hb, if_true]
      rw [keyOut _ 0 szJH _ _ (by rw [hH]; omega)
        (by rw [hH]; simp only [Nat.add_zero]; omega)]
      by_cases c1 : o < szDR
      · rw [keyOut _ (u + szDR + szDR + szDR + szDR) szCR _ _
            (by rw [hD, hR]; omega) (by rw [hD, hR]; omega),
          keyOut _ (u + szDR + szDR + szDR) szDR _ _
            (by rw [hD]; omega) (by rw [hD]; omega),
          keyOut _ (u + szDR + szDR) szDR _ _
            (by rw [hD]; omega) (by rw [hD]; omega),
          keyOut _ (u + szDR) szDR _ _
            (by rw [hD]; omega) (by rw [hD]; omega),
          keyIn _ u szDR _ _ (by rw [hD]; omega) (by omega) (by omega)]
        rw [if_pos c1]
        have : 4096 + u + o - (4096 + u) = o := by omega
        rw [this]
      · by_cases c2 : o < 2 * szDR
        · rw [keyOut _ (u + szDR + szDR + szDR + szDR) szCR _ _
              (by rw [hD, hR]; omega) (by rw [hD, hR]; omega),
            keyOut _ (u + szDR + szDR + szDR) szDR _ _
              (by rw [hD]; omega) (by rw [hD]; omega),
            keyOut _ (u + szDR + szDR) szDR _ _
              (by rw [hD]; omega) (by rw [hD]; omega),
            keyIn _ (u + szDR) szDR _ _
              (by rw [hD]; omega) (by rw [hD] at c1 ⊢; omega)
              (by rw [hD] at c2 ⊢; omega)]
          rw [if_neg c1, if_pos c2]
          have : 4096 + u + o - (4096 + (u + szDR)) = o - szDR := by
            rw [hD] at c1 ⊢; omega
          rw [this]
        · by_cases c3 : o < 3 * szDR
          · rw [keyOut _ (u + szDR + szDR + szDR + szDR) szCR _ _
                (by rw [hD, hR]; omega) (by rw [hD, hR]; omega),
              keyOut _ (u + szDR + szDR + szDR) szDR _ _
                (by rw [hD]; omega) (by rw [hD] at c2 ⊢; omega),
              keyIn _ (u + szDR + szDR) szDR _ _
                (by rw [hD]; omega) (by rw [hD] at c2 ⊢; omega)
                (by rw [hD] at c3 ⊢; omega)]
            rw [if_neg c1, if_neg c2, if_pos c3]
            have : 4096 + u + o - (4096 + (u + szDR + szDR))
                = o - 2 * szDR := by
              rw [hD] at c2 ⊢; omega
            rw [this]
          · by_cases c4 : o < 4 * szDR
            · rw [keyOut _ (u + szDR + szDR + szDR + szDR) szCR _ _
                  (by rw [hD, hR]; omega) (by rw [hD, hR]; omega),
                keyIn _ (u + szDR + szDR + szDR) szDR _ _
                  (by rw [hD]; omega) (by rw [hD] at c3 ⊢; omega)
                  (by rw [hD] at c4 ⊢; omega)]
              rw [if_neg c1, if_neg c2, if_neg c3, if_pos c4]
              have : 4096 + u + o - (4096 + (u + szDR + szDR + szDR))
                  = o - 3 * szDR := by
                rw [hD] at c3 ⊢; omega
              rw [this]
            · rw [keyIn _ (u + szDR + szDR + szDR + szDR) szCR _ _
                  (by rw [hD, hR]; omega) (by rw [hD] at c4 ⊢; omega)
                  (by rw [hD, hR]; omega)]
              rw [if_neg c1, if_neg c2, if_neg c3, if_neg c4]
              have : 4096 + u + o - (4096 + (u + szDR + szDR + szDR + szDR))
                  = o - 4 * szDR := by
                rw [hD] at c4 ⊢; omega
              rw [this]
  · have hl : txLen f = 12316 := by rw [txLen, if_neg hb, hD, hR]
    simp only [createdImg, write_journal_bytes, hjs, hA17, hA19, hA20,
      hS17, hS19, hS20, hS20b, hA17b, hA19b, hA20b, decide_eq_true_eq,
      hb, if_false, hrdb, hA21, ← hudef, Nat.mod_add_mod,
      e1, e2, e3, e4, e5, hl]
    refine ⟨?_, ?_, ?_⟩
    · intro a ha
      rw [keyOut _ 0 szJH _ _ (by rw [hH]; omega)
          (by rw [hH]; simp only [Nat.add_zero]; omega),
        keyOut _ (u + szDR + szDR + szDR) szCR _ _
          (by rw [hD, hR]; omega) (by rw [hD, hR]; omega),
        keyOut _ (u + szDR + szDR) szDR _ _
          (by rw [hD]; omega) (by rw [hD]; omega),
        keyOut _ (u + szDR) szDR _ _
          (by rw [hD]; omega) (by rw [hD]; omega),
        keyOut _ u szDR _ _ (by rw [hD]; omega) (by rw [hD]; omega)]
    · intro o ho
      rw [keyIn _ 0 szJH _ _ (by rw [hH]; omega)
          (by simp only [Nat.add_zero]; omega)
          (by rw [hH]; simp only [Nat.add_zero]; omega)]
      have : 4096 + o - (4096 + 0) = o := by omega
      rw [this]
      have : u + szDR + szDR + szDR + szCR = u + 12316 := by
        rw [hD, hR]
      rw [this]
    · intro o ho
      simp only [txBytes, decide_eq_true_eq, hb, if_false]
      rw [keyOut _ 0 szJH _ _ (by rw [hH]; omega)
        (by rw [hH]; simp only [Nat.add_zero]; omega)]
      by_cases c1 : o < szDR
      · rw [keyOut _ (u + szDR + szDR + szDR) szCR _ _
            (by rw [hD, hR]; omega) (by rw [hD, hR]; omega),
          keyOut _ (u + szDR + szDR) szDR _ _
            (by rw [hD]; omega) (by rw [hD]; omega),
          keyOut _ (u + szDR) szDR _ _
            (by rw [hD]; omega) (by rw [hD]; omega),
          keyIn _ u szDR _ _ (by rw [hD]; omega) (by omega) (by omega)]
        rw [if_pos c1]
        have : 4096 + u + o - (4096 + u) = o := by omega
        rw [this]
      · by_cases c2 : o < 2 * szDR
        · rw [keyOut _ (u + szDR + szDR + szDR) szCR _ _
              (by rw [hD, hR]; omega) (by rw [hD, hR]; omega),
            keyOut _ (u + szDR + szDR) szDR _ _
              (by rw [hD]; omega) (by rw [hD]; omega),
            keyIn _ (u + szDR) szDR _ _
              (by rw [hD]; omega) (by rw [hD] at c1 ⊢; omega)
              (by rw [hD] at c2 ⊢; omega)]
          rw [if_neg c1, if_pos c2]
          have : 4096 + u + o - (4096 + (u + szDR)) = o - szDR := by
            rw [hD] at c1 ⊢; omega
          rw [this]
        · by_cases c3 : o < 3 * szDR
          · rw [keyOut _ (u + szDR + szDR + szDR) szCR _ _
                (by rw [hD, hR]; omega) (by rw [hD, hR]; omega),
              keyIn _ (u + szDR + szDR) szDR _ _
                (by rw [hD]; omega) (by rw [hD] at c2 ⊢; omega)
                (by rw [hD] at c3 ⊢; omega)]
            rw [if_neg c1, if_neg c2, if_pos c3]
            have : 4096 + u + o - (4096 + (u + szDR + szDR))
                = o - 2 * szDR := by
              rw [hD] at c2 ⊢; omega
            rw [this]
          · rw [keyIn _ (u + szDR + szDR + szDR) szCR _ _
                (by rw [hD, hR]; omega) (by rw [hD] at c3 ⊢; omega)
                (by rw [hD, hR]; omega)]
            rw [if_neg c1, if_neg c2, if_neg c3]
            have : 4096 + u + o - (4096 + (u + szDR + szDR + szDR))
                = o - 3 * szDR := by
              rw [hD] at c3 ⊢; omega
            rw [this]

/-- Number of Data Records in one create-transaction. -/
def nRecs (f : Nat) : Nat := if INODES_PER_BLOCK ≤ f then 4 else 3

theorem txLen_eq (f : Nat) : txLen f = szDR * nRecs f + szCR := by
  rw [txLen, nRecs]
  split_ifs <;> ring

/-- The updated inode-bitmap block of one transaction. -/
def txBm (m : Img) (f : Nat) : Nat → Nat :=
  setBitBuf (fun o => m (69632 + o)) f

/-- The updated first inode-table block of one transaction. -/
def txB0 (m : Img) (fname : List Nat) (now f s : Nat) : Nat → Nat :=
  let b0 : Nat → Nat := fun o => m (77824 + o)
  let b0a := if INODES_PER_BLOCK ≤ f then b0 else updInode b0 f now
  match get_highest_dirent (updDirent (fun o => m (86016 + o)) s f fname) with
  | some h => updRootSize b0a ((h + 1) * 32)
  | none => b0a

/-- The updated second inode-table block of one transaction. -/
def txB1 (m : Img) (now f : Nat) : Nat → Nat :=
  updInode (fun o => m (81920 + o)) (f - INODES_PER_BLOCK) now

/-- The updated root-directory block of one transaction. -/
def txDb (m : Img) (fname : List Nat) (f s : Nat) : Nat → Nat :=
  updDirent (fun o => m (86016 + o)) s f fname

/-- Byte-level facts about a serialized data record's header. -/
theorem dataRecBuf_le16_type (bno : Nat) (blk : Nat → Nat) :
    le16 (dataRecBuf bno blk) 0 = REC_DATA := by
  norm_num [le16, dataRecBuf, REC_DATA]

theorem dataRecBuf_le16_size (bno : Nat) (blk : Nat → Nat) :
    le16 (dataRecBuf bno blk) 2 = szDR := by
  norm_num [le16, dataRecBuf, szDR]

theorem dataRecBuf_le32_blockno (bno : Nat) (blk : Nat → Nat) :
    le32 (dataRecBuf bno blk) 4 = bno % U32 := by
  simp only [le32, dataRecBuf]
  norm_num [leByte, U32]
  omega

theorem dataRecBuf_payload (bno : Nat) (blk : Nat → Nat) (y : Nat)
    (h1 : 8 ≤ y) (h2 : y < szDR) : dataRecBuf bno blk y = blk (y - 8) := by
  rw [szDR] at h2
  rw [dataRecBuf, if_neg (by omega), if_neg (by omega), if_neg (by omega),
    if_neg (by omega), if_neg (by omega)]

theorem commitRecBuf_le16_type : le16 commitRecBuf 0 = REC_COMMIT := by
  norm_num [le16, commitRecBuf, REC_COMMIT]

theorem commitRecBuf_le16_size : le16 commitRecBuf 2 = szCR := by
  norm_num [le16, commitRecBuf, szCR]

theorem le16_seg (jd txB : Nat → Nat) (pos l c : Nat)
    (hct : ∀ o, o < l → jd (pos + o) = txB o) (hc : c + 1 < l) :
    le16 jd (pos + c) = le16 txB c := by
  simp only [le16]
  rw [hct c (by omega), show pos + c + 1 = pos + (c + 1) by omega,
    hct (c + 1) (by omega)]

theorem le32_seg (jd txB : Nat → Nat) (pos l c : Nat)
    (hct : ∀ o, o < l → jd (pos + o) = txB o) (hc : c + 3 < l) :
    le32 jd (pos + c) = le32 txB c := by
  simp only [le32]
  rw [hct c (by omega), show pos + c + 1 = pos + (c + 1) by omega,
    hct (c + 1) (by omega), show pos + c + 2 = pos + (c + 2) by omega,
    hct (c + 2) (by omega), show pos + c + 3 = pos + (c + 3) by omega,
    hct (c + 3) (by omega)]

/-- `txBytes` decomposed into its record segments. -/
theorem txBytes_seg (m : Img) (fname : List Nat) (now f s : Nat) :
    (∀ o, o < szDR →
      txBytes m fname now f s o = dataRecBuf 17 (txBm m f) o) ∧
    (∀ o, szDR ≤ o → o < 2 * szDR →
      txBytes m fname now f s o
        = dataRecBuf 19 (txB0 m fname now f s) (o - szDR)) ∧
    (INODES_PER_BLOCK ≤ f →
      (∀ o, 2 * szDR ≤ o → o < 3 * szDR →
        txBytes m fname now f s o = dataRecBuf 20 (txB1 m now f) (o - 2 * szDR)) ∧
      (∀ o, 3 * szDR ≤ o → o < 4 * szDR →
        txBytes m fname now f s o = dataRecBuf 21 (txDb m fname f s) (o - 3 * szDR)) ∧
      (∀ o, 4 * szDR ≤ o →
        txBytes m fname now f s o = commitRecBuf (o - 4 * szDR))) ∧
    (¬ INODES_PER_BLOCK ≤ f →
      (∀ o, 2 * szDR ≤ o → o < 3 * szDR →
        txBytes m fname now f s o = dataRecBuf 21 (txDb m fname f s) (o - 2 * szDR)) ∧
      (∀ o, 3 * szDR ≤ o →
        txBytes m fname now f s o = commitRecBuf (o - 3 * szDR))) := by
  have hD : szDR = 4104 := rfl
  by_cases hb : INODES_PER_BLOCK ≤ f
  · refine ⟨?_, ?_, fun _ => ⟨?_, ?_, ?_⟩, fun h => absurd hb h⟩
    · intro o h1
      rw [hD] at h1
      simp only [txBytes, if_pos hb, txBm]
      rw [if_pos (by rw [hD]; omega)]
    · intro o h1 h2
      rw [hD] at h1 h2
      simp only [txBytes, if_pos hb, txB0]
      rw [if_neg (by rw [hD]; omega), if_pos (by rw [hD]; omega)]
    · intro o h1 h2
      rw [hD] at h1 h2
      simp only [txBytes, if_pos hb, txB1]
      rw [if_neg (by rw [hD]; omega), if_neg (by rw [hD]; omega),
        if_pos (by rw [hD]; omega)]
    · intro o h1 h2
      rw [hD] at h1 h2
      simp only [txBytes, if_pos hb, txDb]
      rw [if_neg (by rw [hD]; omega), if_neg (by rw [hD]; omega),
        if_neg (by rw [hD]; omega), if_pos (by rw [hD]; omega)]
    · intro o h1
      rw [hD] at h1
      simp only [txBytes, if_pos hb]
      rw [if_neg (by rw [hD]; omega), if_neg (by rw [hD]; omega),
        if_neg (by rw [hD]; omega), if_neg (by rw [hD]; omega)]
  · refine ⟨?_, ?_, fun h => absurd h hb, fun _ => ⟨?_, ?_⟩⟩
    · intro o h1
      rw [hD] at h1
      simp only [txBytes, if_neg hb, txBm]
      rw [if_pos (by rw [hD]; omega)]
    · intro o h1 h2
      rw [hD] at h1 h2
      simp only [txBytes, if_neg hb, txB0]
      rw [if_neg (by rw [hD]; omega), if_pos (by rw [hD]; omega)]
    · intro o h1 h2
      rw [hD] at h1 h2
      simp only [txBytes, if_neg hb, txDb]
      rw [if_neg (by rw [hD]; omega), if_neg (by rw [hD]; omega),
        if_pos (by rw [hD]; omega)]
    · intro o h1
      rw [hD] at h1
      simp only [txBytes, if_neg hb]
      rw [if_neg (by rw [hD]; omega), if_neg (by rw [hD]; omega),
        if_neg (by rw [hD]; omega)]

/-- All the byte-level facts install's scan needs about one serialized
transaction sitting at journal-relative offset `pos` of the snapshot
`jd`. -/
theorem tx_jd_facts (jd : Nat → Nat) (m : Img) (fname : List Nat)
    (now f s pos : Nat)
    (hct : ∀ o, o < txLen f → jd (pos + o) = txBytes m fname now f s o) :
    (le16 jd pos = REC_DATA ∧ le16 jd (pos + 2) = szDR ∧
     le32 jd (pos + 4) = 17 ∧
     (∀ x, x < 4096 → jd (pos + 8 + x) = txBm m f x)) ∧
    (le16 jd (pos + szDR) = REC_DATA ∧ le16 jd (pos + szDR + 2) = szDR ∧
     le32 jd (pos + szDR + 4) = 19 ∧
     (∀ x, x < 4096 → jd (pos + szDR + 8 + x) = txB0 m fname now f s x)) ∧
    (INODES_PER_BLOCK ≤ f →
      (le16 jd (pos + 2 * szDR) = REC_DATA
       ∧ le16 jd (pos + 2 * szDR + 2) = szDR
       ∧ le32 jd (pos + 2 * szDR + 4) = 20
       ∧ (∀ x, x < 4096 → jd (pos + 2 * szDR + 8 + x) = txB1 m now f x)) ∧
      (le16 jd (pos + 3 * szDR) = REC_DATA
       ∧ le16 jd (pos + 3 * szDR + 2) = szDR
       ∧ le32 jd (pos + 3 * szDR + 4) = 21
       ∧ (∀ x, x < 4096 → jd (pos + 3 * szDR + 8 + x) = txDb m fname f s x)) ∧
      le16 jd (pos + 4 * szDR) = REC_COMMIT
      ∧ le16 jd (pos + 4 * szDR + 2) = szCR) ∧
    (¬ INODES_PER_BLOCK ≤ f →
      (le16 jd (pos + 2 * szDR) = REC_DATA
       ∧ le16 jd (pos + 2 * szDR + 2) = szDR
       ∧ le32 jd (pos + 2 * szDR + 4) = 21
       ∧ (∀ x, x < 4096 → jd (pos + 2 * szDR + 8 + x) = txDb m fname f s x)) ∧
      le16 jd (pos + 3 * szDR) = REC_COMMIT
      ∧ le16 jd (pos + 3 * szDR + 2) = szCR) := by
  have hD : szDR = 4104 := rfl
  have hR : szCR = 4 := rfl
  obtain ⟨sg1, sg2, sg3, sg4⟩ := txBytes_seg m fname now f s
  have hlenBig : 12316 ≤ txLen f := by
    rw [txLen]
    split_ifs <;> omega
  have s1 : ∀ o, o < szDR → txBytes m fname now f s (0 + o)
      = dataRecBuf 17 (txBm m f) o := by
    intro o ho
    rw [Nat.zero_add]
    exact sg1 o ho
  have s2 : ∀ o, o < szDR → txBytes m fname now f s (szDR + o)
      = dataRecBuf 19 (txB0 m fname now f s) o := by
    intro o ho
    have h := sg2 (szDR + o) (by omega) (by omega)
    rwa [Nat.add_sub_cancel_left] at h
  refine ⟨⟨?_, ?_, ?_, ?_⟩, ⟨?_, ?_, ?_, ?_⟩, ?_, ?_⟩
  · have h1 := le16_seg jd (txBytes m fname now f s) pos (txLen f) 0 hct
      (by omega)
    have h2 := le16_seg (txBytes m fname now f s)
      (dataRecBuf 17 (txBm m f)) 0 szDR 0 s1 (by omega)
    simpa using h1.trans (h2.trans (dataRecBuf_le16_type _ _))
  · have h1 := le16_seg jd (txBytes m fname now f s) pos (txLen f) 2 hct
      (by omega)
    have h2 := le16_seg (txBytes m fname now f s)
      (dataRecBuf 17 (txBm m f)) 0 szDR 2 s1 (by omega)
    simpa using h1.trans (h2.trans (dataRecBuf_le16_size _ _))
  · have h1 := le32_seg jd (txBytes m fname now f s) pos (txLen f) 4 hct
      (by omega)
    have h2 := le32_seg (txBytes m fname now f s)
      (dataRecBuf 17 (txBm m f)) 0 szDR 4 s1 (by omega)
    simpa using h1.trans (h2.trans ((dataRecBuf_le32_blockno 17 _).trans (by rw [U32])))
  · intro x hx
    rw [show pos + 8 + x = pos + (8 + x) by omega,
      hct (8 + x) (by omega),
      sg1 (8 + x) (by omega),
      dataRecBuf_payload _ _ _ (by omega) (by omega),
      Nat.add_sub_cancel_left]
  · have h1 := le16_seg jd (txBytes m fname now f s) pos (txLen f) szDR hct
      (by omega)
    have h2 := le16_seg (txBytes m fname now f s)
      (dataRecBuf 19 (txB0 m fname now f s)) szDR szDR 0 s2
      (by omega)
    simpa using h1.trans (h2.trans (dataRecBuf_le16_type _ _))
  · have h1 := le16_seg jd (txBytes m fname now f s) pos (txLen f)
      (szDR + 2) hct (by omega)
    have h2 := le16_seg (txBytes m fname now f s)
      (dataRecBuf 19 (txB0 m fname now f s)) szDR szDR 2 s2
      (by omega)
    rw [show pos + szDR + 2 = pos + (szDR + 2) by omega]
    exact h1.trans (h2.trans (dataRecBuf_le16_size _ _))
  · have h1 := le32_seg jd (txBytes m fname now f s) pos (txLen f)
      (szDR + 4) hct (by omega)
    have h2 := le32_seg (txBytes m fname now f s)
      (dataRecBuf 19 (txB0 m fname now f s)) szDR szDR 4 s2
      (by omega)
    rw [show pos + szDR + 4 = pos + (szDR + 4) by omega]
    exact h1.trans (h2.trans ((dataRecBuf_le32_blockno 19 _).trans (by rw [U32])))
  · intro x hx
    rw [show pos + szDR + 8 + x = pos + (szDR + (8 + x)) by omega,
      hct (szDR + (8 + x)) (by omega),
      s2 (8 + x) (by omega),
      dataRecBuf_payload _ _ _ (by omega) (by omega),
      Nat.add_sub_cancel_left]
  · intro hb
    have hlen4 : txLen f = 16420 := by rw [txLen, if_pos hb]; omega
    obtain ⟨sgA, sgB, sgC⟩ := sg3 hb
    have s3 : ∀ o, o < szDR → txBytes m fname now f s (2 * szDR + o)
        = dataRecBuf 20 (txB1 m now f) o := by
      intro o ho
      have h := sgA (2 * szDR + o) (by omega) (by omega)
      rwa [Nat.add_sub_cancel_left] at h
    have s4 : ∀ o, o < szDR → txBytes m fname now f s (3 * szDR + o)
        = dataRecBuf 21 (txDb m fname f s) o := by
      intro o ho
      have h := sgB (3 * szDR + o) (by omega) (by omega)
      rwa [Nat.add_sub_cancel_left] at h
    have s5 : ∀ o, o < szCR → txBytes m fname now f s (4 * szDR + o)
        = commitRecBuf o := by
      intro o ho
      have h := sgC (4 * szDR + o) (by omega)
      rwa [Nat.add_sub_cancel_left] at h
    refine ⟨⟨?_, ?_, ?_, ?_⟩, ⟨?_, ?_, ?_, ?_⟩, ?_, ?_⟩
    · have h1 := le16_seg jd (txBytes m fname now f s) pos (txLen f)
        (2 * szDR) hct (by omega)
      have h2 := le16_seg (txBytes m fname now f s)
        (dataRecBuf 20 (txB1 m now f)) (2 * szDR) szDR 0 s3
        (by omega)
      simpa using h1.trans (h2.trans (dataRecBuf_le16_type _ _))
    · have h1 := le16_seg jd (txBytes m fname now f s) pos (txLen f)
        (2 * szDR + 2) hct (by omega)
      have h2 := le16_seg (txBytes m fname now f s)
        (dataRecBuf 20 (txB1 m now f)) (2 * szDR) szDR 2 s3
        (by omega)
      rw [show pos + 2 * szDR + 2 = pos + (2 * szDR + 2) by omega]
      exact h1.trans (h2.trans (dataRecBuf_le16_size _ _))
    · have h1 := le32_seg jd (txBytes m fname now f s) pos (txLen f)
        (2 * szDR + 4) hct (by omega)
      have h2 := le32_seg (txBytes m fname now f s)
        (dataRecBuf 20 (txB1 m now f)) (2 * szDR) szDR 4 s3
        (by omega)
      rw [show pos + 2 * szDR + 4 = pos + (2 * szDR + 4) by omega]
      exact h1.trans (h2.trans ((dataRecBuf_le32_blockno 20 _).trans (by rw [U32])))
    · intro x hx
      rw [show pos + 2 * szDR + 8 + x = pos + (2 * szDR + (8 + x)) by omega,
        hct (2 * szDR + (8 + x)) (by omega),
        s3 (8 + x) (by omega),
        dataRecBuf_payload _ _ _ (by omega) (by omega),
        Nat.add_sub_cancel_left]
    · have h1 := le16_seg jd (txBytes m fname now f s) pos (txLen f)
        (3 * szDR) hct (by omega)
      have h2 := le16_seg (txBytes m fname now f s)
        (dataRecBuf 21 (txDb m fname f s)) (3 * szDR) szDR 0 s4
        (by omega)
      simpa using h1.trans (h2.trans (dataRecBuf_le16_type _ _))
    · have h1 := le16_seg jd (txBytes m fname now f s) pos (txLen f)
        (3 * szDR + 2) hct (by omega)
      have h2 := le16_seg (txBytes m fname now f s)
        (dataRecBuf 21 (txDb m fname f s)) (3 * szDR) szDR 2 s4
        (by omega)
      rw [show pos + 3 * szDR + 2 = pos + (3 * szDR + 2) by omega]
      exact h1.trans (h2.trans (dataRecBuf_le16_size _ _))
    · have h1 := le32_seg jd (txBytes m fname now f s) pos (txLen f)
        (3 * szDR + 4) hct (by omega)
      have h2 := le32_seg (txBytes m fname now f s)
        (dataRecBuf 21 (txDb m fname f s)) (3 * szDR) szDR 4 s4
        (by omega)
      rw [show pos + 3 * szDR + 4 = pos + (3 * szDR + 4) by omega]
      exact h1.trans (h2.trans ((dataRecBuf_le32_blockno 21 _).trans (by rw [U32])))
    · intro x hx
      rw [show pos + 3 * szDR + 8 + x = pos + (3 * szDR + (8 + x)) by omega,
        hct (3 * szDR + (8 + x)) (by omega),
        s4 (8 + x) (by omega),
        dataRecBuf_payload _ _ _ (by omega) (by omega),
        Nat.add_sub_cancel_left]
    · have h1 := le16_seg jd (txBytes m fname now f s) pos (txLen f)
        (4 * szDR) hct (by omega)
      have h2 := le16_seg (txBytes m fname now f s) commitRecBuf
        (4 * szDR) szCR 0 s5 (by omega)
      simpa using h1.trans (h2.trans commitRecBuf_le16_type)
    · have h1 := le16_seg jd (txBytes m fname now f s) pos (txLen f)
        (4 * szDR + 2) hct (by omega)
      have h2 := le16_seg (txBytes m fname now f s) commitRecBuf
        (4 * szDR) szCR 2 s5 (by omega)
      rw [show pos + 4 * szDR + 2 = pos + (4 * szDR + 2) by omega]
      exact h1.trans (h2.trans commitRecBuf_le16_size)
  · intro hb
    have hlen3 : txLen f = 12316 := by rw [txLen, if_neg hb]; omega
    obtain ⟨sgA, sgB⟩ := sg4 hb
    have s3 : ∀ o, o < szDR → txBytes m fname now f s (2 * szDR + o)
        = dataRecBuf 21 (txDb m fname f s) o := by
      intro o ho
      have h := sgA (2 * szDR + o) (by omega) (by omega)
      rwa [Nat.add_sub_cancel_left] at h
    have s5 : ∀ o, o < szCR → txBytes m fname now f s (3 * szDR + o)
        = commitRecBuf o := by
      intro o ho
      have h := sgB (3 * szDR + o) (by omega)
      rwa [Nat.add_sub_cancel_left] at h
    refine ⟨⟨?_, ?_, ?_, ?_⟩, ?_, ?_⟩
    · have h1 := le16_seg jd (txBytes m fname now f s) pos (txLen f)
        (2 * szDR) hct (by omega)
      have h2 := le16_seg (txBytes m fname now f s)
        (dataRecBuf 21 (txDb m fname f s)) (2 * szDR) szDR 0 s3
        (by omega)
      simpa using h1.trans (h2.trans (dataRecBuf_le16_type _ _))
    · have h1 := le16_seg jd (txBytes m fname now f s) pos (txLen f)
        (2 * szDR + 2) hct (by omega)
      have h2 := le16_seg (txBytes m fname now f s)
        (dataRecBuf 21 (txDb m fname f s)) (2 * szDR) szDR 2 s3
        (by omega)
      rw [show pos + 2 * szDR + 2 = pos + (2 * szDR + 2) by omega]
      exact h1.trans (h2.trans (dataRecBuf_le16_size _ _))
    · have h1 := le32_seg jd (txBytes m fname now f s) pos (txLen f)
        (2 * szDR + 4) hct (by omega)
      have h2 := le32_seg (txBytes m fname now f s)
        (dataRecBuf 21 (txDb m fname f s)) (2 * szDR) szDR 4 s3
        (by omega)
      rw [show pos + 2 * szDR + 4 = pos + (2 * szDR + 4) by omega]
      exact h1.trans (h2.trans ((dataRecBuf_le32_blockno 21 _).trans (by rw [U32])))
    · intro x hx
      rw [show pos + 2 * szDR + 8 + x = pos + (2 * szDR + (8 + x)) by omega,
        hct (2 * szDR + (8 + x)) (by omega),
        s3 (8 + x) (by omega),
        dataRecBuf_payload _ _ _ (by omega) (by omega),
        Nat.add_sub_cancel_left]
    · have h1 := le16_seg jd (txBytes m fname now f s) pos (txLen f)
        (3 * szDR) hct (by omega)
      have h2 := le16_seg (txBytes m fname now f s) commitRecBuf
        (3 * szDR) szCR 0 s5 (by omega)
      simpa using h1.trans (h2.trans commitRecBuf_le16_type)
    · have h1 := le16_seg jd (txBytes m fname now f s) pos (txLen f)
        (3 * szDR + 2) hct (by omega)
      have h2 := le16_seg (txBytes m fname now f s) commitRecBuf
        (3 * szDR) szCR 2 s5 (by omega)
      rw [show pos + 3 * szDR + 2 = pos + (3 * szDR + 2) by omega]
      exact h1.trans (h2.trans commitRecBuf_le16_size)

/-- Scanning one complete transaction in the middle of the log:
`m` Data Records and a Commit Record, with at least `szCR` more bytes of
log possibly following.  The scan consumes the transaction, applies its
writes after the already-applied ones, bumps the count, and continues
with an empty pending buffer. -/
theorem scanRecs_run_step (jd : Nat → Nat) (used : Nat) :
    ∀ (m fuel d : Nat) (pending applied : List Write) (t : Nat),
    (∀ i, i < m → le16 jd (d + szDR * i) = REC_DATA
      ∧ le16 jd (d + szDR * i + 2) = szDR) →
    le16 jd (d + szDR * m) = REC_COMMIT →
    le16 jd (d + szDR * m + 2) = szCR →
    d + szDR * m + szCR ≤ used →
    pending.length + m ≤ 16 →
    scanRecs jd used (fuel + (m + 1)) d pending applied t
      = scanRecs jd used fuel (d + szDR * m + szCR) []
          (applied ++ (pending ++ runWrites jd d m)) (t + 1) := by
  intro m
  induction m with
  | zero =>
    intro fuel d pending applied t _ hc1 hc2 hle _
    simp only [Nat.mul_zero, Nat.add_zero] at hc1 hc2 hle
    rw [show fuel + (0 + 1) = fuel + 1 by omega]
    have hd : ¬ used ≤ d := by
      simp only [szCR] at hle; omega
    have hg : ¬ (le16 jd (d + 2) = 0 ∨ used < d + le16 jd (d + 2)) := by
      rw [hc2]
      simp only [szCR] at hle ⊢
      omega
    have hnd : ¬ le16 jd d = REC_DATA := by
      rw [hc1]; simp [REC_COMMIT, REC_DATA]
    simp only [scanRecs, if_neg hd]
    rw [if_neg hg, if_neg hnd, if_pos hc1]
    simp [runWrites]
  | succ m ih =>
    intro fuel d pending applied t hrec hc1 hc2 hle hlen
    obtain ⟨ht0, hs0⟩ := hrec 0 (Nat.succ_pos m)
    simp only [Nat.mul_zero, Nat.add_zero] at ht0 hs0
    have hd : ¬ used ≤ d := by
      simp only [szDR, szCR] at hle; omega
    have hg : ¬ (le16 jd (d + 2) = 0 ∨ used < d + le16 jd (d + 2)) := by
      rw [hs0]
      simp only [szDR, szCR] at hle ⊢
      omega
    have hlt : pending.length < 16 := by omega
    rw [show fuel + (m + 1 + 1) = (fuel + (m + 1)) + 1 by omega]
    generalize hF : fuel + (m + 1) = F
    simp only [scanRecs, if_neg hd]
    rw [if_neg hg, if_pos ht0, if_pos hlt, ← hF]
    have hnext := ih fuel (d + szDR)
      (pending ++ [((le32 jd (d + 4), fun o => jd (d + 8 + o)) : Write)])
      applied t
      (by
        intro i hi
        obtain ⟨a1, a2⟩ := hrec (i + 1) (by omega)
        constructor
        · have harg : d + szDR + szDR * i = d + szDR * (i + 1) := by ring
          rw [harg]; exact a1
        · have harg : d + szDR + szDR * i + 2 = d + szDR * (i + 1) + 2 := by
            ring
          rw [harg]; exact a2
      )
      (by
        have harg : d + szDR + szDR * m = d + szDR * (m + 1) := by ring
        rw [harg]; exact hc1)
      (by
        have harg : d + szDR + szDR * m + 2 = d + szDR * (m + 1) + 2 := by
          ring
        rw [harg]; exact hc2)
      (by
        have harg : d + szDR + szDR * m + szCR = d + szDR * (m + 1) + szCR := by
          ring
        rw [harg]; exact hle)
      (by simp only [List.length_append, List.length_cons,
            List.length_nil]; omega)
    rw [hnext, runWrites_succ,
      show d + szDR + szDR * m + szCR = d + szDR * (m + 1) + szCR by ring]
    simp

/-- The writes of a sequence of serialized create-transactions starting
at journal-relative `pos`, in log order. -/
def wcat (jd : Nat → Nat) (f : Nat) :
    Nat → List (List Nat × Nat) → List Write
  | _, [] => []
  | pos, _ :: ps => runWrites jd pos (nRecs f) ++ wcat jd f (pos + txLen f) ps

/-- Scanning a log that consists exactly of serialized create
transactions: every transaction is counted and its writes appended in
log order. -/
theorem scan_wcat (m imgK : Img) (f s : Nat) :
    ∀ (ps : List (List Nat × Nat)) (pos fuel : Nat)
      (applied : List Write) (t used : Nat),
    ContentAt m f s imgK pos ps →
    used = pos + ps.length * txLen f →
    scanRecs (fun o => imgK (4096 + o)) used
        (fuel + 1 + ps.length * (nRecs f + 1)) pos [] applied t
      = (t + ps.length,
         applied ++ wcat (fun o => imgK (4096 + o)) f pos ps) := by
  have hD : szDR = 4104 := rfl
  have hR : szCR = 4 := rfl
  intro ps
  induction ps with
  | nil =>
    intro pos fuel applied t used _ hused
    subst hused
    simp only [List.length_nil, Nat.zero_mul, Nat.add_zero]
    simp only [scanRecs, if_pos (Nat.le_refl pos)]
    simp [wcat]
  | cons p ps ih =>
    intro pos fuel applied t used hca hused
    obtain ⟨hct, htail⟩ := hca
    simp only [List.length_cons] at hused ⊢
    have hct' : ∀ o, o < txLen f →
        (fun o => imgK (4096 + o)) (pos + o) = txBytes m p.1 p.2 f s o := by
      intro o ho
      show imgK (4096 + (pos + o)) = _
      rw [show 4096 + (pos + o) = 4096 + pos + o by omega]
      exact hct o ho
    have facts := tx_jd_facts (fun o => imgK (4096 + o)) m p.1 p.2 f s pos hct'
    obtain ⟨⟨r0t, r0s, r0b, r0p⟩, ⟨r1t, r1s, r1b, r1p⟩, hbH, hbL⟩ := facts
    by_cases hb : INODES_PER_BLOCK ≤ f
    · have hn : nRecs f = 4 := by rw [nRecs, if_pos hb]
      have hl : txLen f = 16420 := by rw [txLen, if_pos hb]; omega
      obtain ⟨⟨r2t, r2s, r2b, r2p⟩, ⟨r3t, r3s, r3b, r3p⟩, rct, rcs⟩ := hbH hb
      rw [show fuel + 1 + (ps.length + 1) * (nRecs f + 1)
          = (fuel + 1 + ps.length * (nRecs f + 1)) + (4 + 1) by rw [hn]; ring]
      rw [scanRecs_run_step (fun o => imgK (4096 + o)) used 4
        (fuel + 1 + ps.length * (nRecs f + 1)) pos [] applied t
        (by
          intro i hi
          interval_cases i
          · exact ⟨by rw [show pos + szDR * 0 = pos by ring]; exact r0t,
              by rw [show pos + szDR * 0 + 2 = pos + 2 by ring]; exact r0s⟩
          · exact ⟨by rw [show pos + szDR * 1 = pos + szDR by ring]; exact r1t,
              by rw [show pos + szDR * 1 + 2 = pos + szDR + 2 by ring]; exact r1s⟩
          · exact ⟨by rw [show pos + szDR * 2 = pos + 2 * szDR by ring]; exact r2t,
              by rw [show pos + szDR * 2 + 2 = pos + 2 * szDR + 2 by ring]; exact r2s⟩
          · exact ⟨by rw [show pos + szDR * 3 = pos + 3 * szDR by ring]; exact r3t,
              by rw [show pos + szDR * 3 + 2 = pos + 3 * szDR + 2 by ring]; exact r3s⟩)
        (by rw [show pos + szDR * 4 = pos + 4 * szDR by ring]; exact rct)
        (by rw [show pos + szDR * 4 + 2 = pos + 4 * szDR + 2 by ring]; exact rcs)
        (by rw [hused, hl]; omega)
        (by decide)]
      rw [show pos + szDR * 4 + szCR = pos + txLen f by rw [hl]; omega]
      rw [ih (pos + txLen f) fuel (applied ++ ([] ++ runWrites
          (fun o => imgK (4096 + o)) pos 4)) (t + 1) used htail
        (by rw [hused]; ring)]
      simp only [wcat, hn, List.nil_append, Prod.mk.injEq]
      exact ⟨by omega, by simp [List.append_assoc]⟩
    · have hn : nRecs f = 3 := by rw [nRecs, if_neg hb]
      have hl : txLen f = 12316 := by rw [txLen, if_neg hb]; omega
      obtain ⟨⟨r2t, r2s, r2b, r2p⟩, rct, rcs⟩ := hbL hb
      rw [show fuel + 1 + (ps.length + 1) * (nRecs f + 1)
          = (fuel + 1 + ps.length * (nRecs f + 1)) + (3 + 1) by rw [hn]; ring]
      rw [scanRecs_run_step (fun o => imgK (4096 + o)) used 3
        (fuel + 1 + ps.length * (nRecs f + 1)) pos [] applied t
        (by
          intro i hi
          interval_cases i
          · exact ⟨by rw [show pos + szDR * 0 = pos by ring]; exact r0t,
              by rw [show pos + szDR * 0 + 2 = pos + 2 by ring]; exact r0s⟩
          · exact ⟨by rw [show pos + szDR * 1 = pos + szDR by ring]; exact r1t,
              by rw [show pos + szDR * 1 + 2 = pos + szDR + 2 by ring]; exact r1s⟩
          · exact ⟨by rw [show pos + szDR * 2 = pos + 2 * szDR by ring]; exact r2t,
              by rw [show pos + szDR * 2 + 2 = pos + 2 * szDR + 2 by ring]; exact r2s⟩)
        (by rw [show pos + szDR * 3 = pos + 3 * szDR by ring]; exact rct)
        (by rw [show pos + szDR * 3 + 2 = pos + 3 * szDR + 2 by ring]; exact rcs)
        (by rw [hused, hl]; omega)
        (by decide)]
      rw [show pos + szDR * 3 + szCR = pos + txLen f by rw [hl]; omega]
      rw [ih (pos + txLen f) fuel (applied ++ ([] ++ runWrites
          (fun o => imgK (4096 + o)) pos 3)) (t + 1) used htail
        (by rw [hused]; ring)]
      simp only [wcat, hn, List.nil_append, Prod.mk.injEq]
      exact ⟨by omega, by simp [List.append_assoc]⟩

theorem applyWrites_append (im : Img) (xs ys : List Write) :
    applyWrites im (xs ++ ys) = applyWrites (applyWrites im xs) ys := by
  simp [applyWrites, List.foldl_append]

/-- Applying the writes of one serialized create-transaction: the four
metadata blocks take the transaction's buffers, everything else is
untouched. -/
theorem applyWrites_oneTx (imgK m : Img) (fn : List Nat)
    (now f s pos : Nat) (im : Img)
    (hct : ∀ o, o < txLen f → imgK (4096 + pos + o) = txBytes m fn now f s o) :
    (∀ x, x < 4096 →
      applyWrites im (runWrites (fun o => imgK (4096 + o)) pos (nRecs f))
          (69632 + x) = txBm m f x
      ∧ applyWrites im (runWrites (fun o => imgK (4096 + o)) pos (nRecs f))
          (77824 + x) = txB0 m fn now f s x
      ∧ applyWrites im (runWrites (fun o => imgK (4096 + o)) pos (nRecs f))
          (86016 + x) = txDb m fn f s x)
    ∧ (INODES_PER_BLOCK ≤ f → ∀ x, x < 4096 →
        applyWrites im (runWrites (fun o => imgK (4096 + o)) pos (nRecs f))
          (81920 + x) = txB1 m now f x)
    ∧ (∀ a, (a < 69632 ∨ 90112 ≤ a ∨ (73728 ≤ a ∧ a < 77824)
          ∨ (¬ INODES_PER_BLOCK ≤ f ∧ 81920 ≤ a ∧ a < 86016)) →
        applyWrites im (runWrites (fun o => imgK (4096 + o)) pos (nRecs f)) a
          = im a) := by
  have hD : szDR = 4104 := rfl
  have hB : BLOCK_SIZE = 4096 := rfl
  have hA17b : blockAddr 17 = 69632 := rfl
  have hA19b : blockAddr 19 = 77824 := rfl
  have hA20b : blockAddr 20 = 81920 := rfl
  have hA21b : blockAddr 21 = 86016 := rfl
  have hct' : ∀ o, o < txLen f →
      (fun o => imgK (4096 + o)) (pos + o) = txBytes m fn now f s o := by
    intro o ho
    show imgK (4096 + (pos + o)) = _
    rw [show 4096 + (pos + o) = 4096 + pos + o by omega]
    exact hct o ho
  obtain ⟨⟨r0t, r0s, r0b, r0p⟩, ⟨r1t, r1s, r1b, r1p⟩, hbH, hbL⟩ :=
    tx_jd_facts (fun o => imgK (4096 + o)) m fn now f s pos hct'
  by_cases hb : INODES_PER_BLOCK ≤ f
  · have hn : nRecs f = 4 := by rw [nRecs, if_pos hb]
    obtain ⟨⟨r2t, r2s, r2b, r2p⟩, ⟨r3t, r3s, r3b, r3p⟩, rct, rcs⟩ := hbH hb
    have hw0 : le32 (fun o => imgK (4096 + o)) (pos + szDR * 0 + 4) = 17 := by
      rw [show pos + szDR * 0 + 4 = pos + 4 by ring]; exact r0b
    have hw1 : le32 (fun o => imgK (4096 + o)) (pos + szDR * 1 + 4) = 19 := by
      rw [show pos + szDR * 1 + 4 = pos + szDR + 4 by ring]; exact r1b
    have hw2 : le32 (fun o => imgK (4096 + o)) (pos + szDR * 2 + 4) = 20 := by
      rw [show pos + szDR * 2 + 4 = pos + 2 * szDR + 4 by ring]; exact r2b
    have hw3 : le32 (fun o => imgK (4096 + o)) (pos + szDR * 3 + 4) = 21 := by
      rw [show pos + szDR * 3 + 4 = pos + 3 * szDR + 4 by ring]; exact r3b
    rw [hn]
    have hlist : runWrites (fun o => imgK (4096 + o)) pos 4
        = [((le32 (fun o => imgK (4096 + o)) (pos + szDR * 0 + 4),
             fun o => imgK (4096 + (pos + szDR * 0 + 8 + o))) : Write),
           ((le32 (fun o => imgK (4096 + o)) (pos + szDR * 1 + 4),
             fun o => imgK (4096 + (pos + szDR * 1 + 8 + o))) : Write),
           ((le32 (fun o => imgK (4096 + o)) (pos + szDR * 2 + 4),
             fun o => imgK (4096 + (pos + szDR * 2 + 8 + o))) : Write),
           ((le32 (fun o => imgK (4096 + o)) (pos + szDR * 3 + 4),
             fun o => imgK (4096 + (pos + szDR * 3 + 8 + o))) : Write)] := rfl
    rw [hlist]
    simp only [applyWrites, List.foldl_cons, List.foldl_nil]
    rw [hw0, hw1, hw2, hw3]
    simp only [write_block, hA17b, hA19b, hA20b, hA21b]
    refine ⟨?_, fun _ x hx => ?_, ?_⟩
    · intro x hx
      refine ⟨?_, ?_, ?_⟩
      · rw [writeBytes_out _ _ _ _ _ (by rw [hB]; omega),
          writeBytes_out _ _ _ _ _ (by rw [hB]; omega),
          writeBytes_out _ _ _ _ _ (by rw [hB]; omega),
          writeBytes_in _ _ _ _ _ (by omega) (by rw [hB]; omega),
          Nat.add_sub_cancel_left]
        have := r0p x hx
        rw [show pos + 8 + x = pos + szDR * 0 + 8 + x by ring] at this
        exact this
      · rw [writeBytes_out _ _ _ _ _ (by rw [hB]; omega),
          writeBytes_out _ _ _ _ _ (by rw [hB]; omega),
          writeBytes_in _ _ _ _ _ (by omega) (by rw [hB]; omega),
          Nat.add_sub_cancel_left]
        have := r1p x hx
        rw [show pos + szDR + 8 + x = pos + szDR * 1 + 8 + x by ring] at this
        rw [show (4096 : Nat) + (pos + szDR * 1 + 8 + x)
            = 4096 + (pos + szDR * 1 + 8 + x) by rfl]
        exact this
      · rw [writeBytes_in _ _ _ _ _ (by omega) (by rw [hB]; omega),
          Nat.add_sub_cancel_left]
        have := r3p x hx
        rw [show pos + 3 * szDR + 8 + x = pos + szDR * 3 + 8 + x by ring] at this
        exact this
    · rw [writeBytes_out _ _ _ _ _ (by rw [hB]; omega),
        writeBytes_in _ _ _ _ _ (by omega) (by rw [hB]; omega),
        Nat.add_sub_cancel_left]
      have := r2p x hx
      rw [show pos + 2 * szDR + 8 + x = pos + szDR * 2 + 8 + x by ring] at this
      exact this
    · intro a ha
      rw [writeBytes_out _ _ _ _ _ (by rw [hB]; omega),
        writeBytes_out _ _ _ _ _ (by rw [hB]; omega),
        writeBytes_out _ _ _ _ _ (by rw [hB]; omega),
        writeBytes_out _ _ _ _ _ (by rw [hB]; omega)]
  · have hn : nRecs f = 3 := by rw [nRecs, if_neg hb]
    obtain ⟨⟨r2t, r2s, r2b, r2p⟩, rct, rcs⟩ := hbL hb
    have hw0 : le32 (fun o => imgK (4096 + o)) (pos + szDR * 0 + 4) = 17 := by
      rw [show pos + szDR * 0 + 4 = pos + 4 by ring]; exact r0b
    have hw1 : le32 (fun o => imgK (4096 + o)) (pos + szDR * 1 + 4) = 19 := by
      rw [show pos + szDR * 1 + 4 = pos + szDR + 4 by ring]; exact r1b
    have hw2 : le32 (fun o => imgK (4096 + o)) (pos + szDR * 2 + 4) = 21 := by
      rw [show pos + szDR * 2 + 4 = pos + 2 * szDR + 4 by ring]; exact r2b
    rw [hn]
    have hlist : runWrites (fun o => imgK (4096 + o)) pos 3
        = [((le32 (fun o => imgK (4096 + o)) (pos + szDR * 0 + 4),
             fun o => imgK (4096 + (pos + szDR * 0 + 8 + o))) : Write),
           ((le32 (fun o => imgK (4096 + o)) (pos + szDR * 1 + 4),
             fun o => imgK (4096 + (pos + szDR * 1 + 8 + o))) : Write),
           ((le32 (fun o => imgK (4096 + o)) (pos + szDR * 2 + 4),
             fun o => imgK (4096 + (pos + szDR * 2 + 8 + o))) : Write)] := rfl
    rw [hlist]
    simp only [applyWrites, List.foldl_cons, List.foldl_nil]
    rw [hw0, hw1, hw2]
    simp only [write_block, hA17b, hA19b, hA21b]
    refine ⟨?_, fun hbf _ _ => absurd hbf hb, ?_⟩
    · intro x hx
      refine ⟨?_, ?_, ?_⟩
      · rw [writeBytes_out _ _ _ _ _ (by rw [hB]; omega),
          writeBytes_out _ _ _ _ _ (by rw [hB]; omega),
          writeBytes_in _ _ _ _ _ (by omega) (by rw [hB]; omega),
          Nat.add_sub_cancel_left]
        have := r0p x hx
        rw [show pos + 8 + x = pos + szDR * 0 + 8 + x by ring] at this
        exact this
      · rw [writeBytes_out _ _ _ _ _ (by rw [hB]; omega),
          writeBytes_in _ _ _ _ _ (by omega) (by rw [hB]; omega),
          Nat.add_sub_cancel_left]
        have := r1p x hx
        rw [show pos + szDR + 8 + x = pos + szDR * 1 + 8 + x by ring] at this
        exact this
      · rw [writeBytes_in _ _ _ _ _ (by omega) (by rw [hB]; omega),
          Nat.add_sub_cancel_left]
        have := r2p x hx
        rw [show pos + 2 * szDR + 8 + x = pos + szDR * 2 + 8 + x by ring] at this
        exact this
    · intro a ha
      rw [writeBytes_out _ _ _ _ _ (by rw [hB]; omega),
        writeBytes_out _ _ _ _ _ (by rw [hB]; omega),
        writeBytes_out _ _ _ _ _ (by rw [hB]; omega)]

/-- Applying all writes of a log of serialized create-transactions:
outside the four metadata blocks nothing changes, and (for a non-empty
log) each metadata block ends up holding the LAST transaction's buffer
(the bitmap buffer is the same for every transaction of the log). -/
theorem applyWrites_wcat (m imgK : Img) (f s : Nat) :
    ∀ (ps : List (List Nat × Nat)) (pos : Nat) (im : Img),
    ContentAt m f s imgK pos ps →
    (∀ a, (a < 69632 ∨ 90112 ≤ a ∨ (73728 ≤ a ∧ a < 77824)
        ∨ (¬ INODES_PER_BLOCK ≤ f ∧ 81920 ≤ a ∧ a < 86016)) →
      applyWrites im (wcat (fun o => imgK (4096 + o)) f pos ps) a = im a)
    ∧ (∀ q, ps.getLast? = some q → ∀ x, x < 4096 →
        applyWrites im (wcat (fun o => imgK (4096 + o)) f pos ps)
          (69632 + x) = txBm m f x
        ∧ applyWrites im (wcat (fun o => imgK (4096 + o)) f pos ps)
          (77824 + x) = txB0 m q.1 q.2 f s x
        ∧ applyWrites im (wcat (fun o => imgK (4096 + o)) f pos ps)
          (86016 + x) = txDb m q.1 f s x
        ∧ (INODES_PER_BLOCK ≤ f →
            applyWrites im (wcat (fun o => imgK (4096 + o)) f pos ps)
              (81920 + x) = txB1 m q.2 f x)) := by
  intro ps
  induction ps with
  | nil =>
    intro pos im _
    refine ⟨fun a _ => rfl, fun q hq => ?_⟩
    simp at hq
  | cons p ps ih =>
    intro pos im hca
    obtain ⟨hct, htail⟩ := hca
    obtain ⟨hv1, hv2, hfr1⟩ := applyWrites_oneTx imgK m p.1 p.2 f s pos im hct
    obtain ⟨ihfr, ihv⟩ := ih (pos + txLen f)
      (applyWrites im (runWrites (fun o => imgK (4096 + o)) pos (nRecs f)))
      htail
    have hsplit : ∀ a, applyWrites im
        (wcat (fun o => imgK (4096 + o)) f pos (p :: ps)) a
        = applyWrites (applyWrites im
            (runWrites (fun o => imgK (4096 + o)) pos (nRecs f)))
          (wcat (fun o => imgK (4096 + o)) f (pos + txLen f) ps) a := by
      intro a
      rw [show wcat (fun o => imgK (4096 + o)) f pos (p :: ps)
          = runWrites (fun o => imgK (4096 + o)) pos (nRecs f)
            ++ wcat (fun o => imgK (4096 + o)) f (pos + txLen f) ps from rfl,
        applyWrites_append]
    refine ⟨?_, ?_⟩
    · intro a ha
      rw [hsplit, ihfr a ha, hfr1 a ha]
    · intro q hq x hx
      cases ps with
      | nil =>
        have hqp : q = p := by simpa using hq.symm
        subst hqp
        obtain ⟨e1, e2, e3⟩ := hv1 x hx
        exact ⟨by rw [hsplit]; exact e1, by rw [hsplit]; exact e2,
          by rw [hsplit]; exact e3, fun hb => by rw [hsplit]; exact hv2 hb x hx⟩
      | cons p2 ps2 =>
        have hq' : (p2 :: ps2).getLast? = some q := by
          rwa [List.getLast?_cons_cons] at hq
        obtain ⟨e1, e2, e3, e4⟩ := ihv q hq' x hx
        exact ⟨by rw [hsplit]; exact e1, by rw [hsplit]; exact e2,
          by rw [hsplit]; exact e3, fun hb => by rw [hsplit]; exact e4 hb⟩

theorem jhBuf_le32_magic (m u : Nat) : le32 (jhBuf m u) 0 = m % U32 := by
  simp only [le32, jhBuf, leByte]
  norm_num [U32]
  omega

theorem jhBuf_le32_used (m u : Nat) : le32 (jhBuf m u) 4 = u % U32 := by
  simp only [le32, jhBuf, leByte]
  norm_num [U32]
  omega

theorem updRootSize_out (blk : Nat → Nat) (sz o : Nat)
    (h : o < 4 ∨ 8 ≤ o) : updRootSize blk sz o = blk o := by
  rw [updRootSize, if_neg (by omega)]

theorem updInode_out (blk : Nat → Nat) (idx now o : Nat)
    (h : o < 128 * idx ∨ 128 * idx + 48 ≤ o) :
    updInode blk idx now o = blk o := by
  rw [updInode, if_pos h]

theorem updInode_le16_type (blk : Nat → Nat) (idx now : Nat) :
    le16 (updInode blk idx now) (128 * idx) = INODE_FILE := by
  have b0 : updInode blk idx now (128 * idx) = INODE_FILE := by
    rw [updInode, if_neg (by omega), if_pos rfl]
  have b1 : updInode blk idx now (128 * idx + 1) = 0 := by
    rw [updInode, if_neg (by omega), if_neg (by omega), if_neg (by omega),
      if_neg (by omega), if_neg (by omega)]
  simp only [le16, b0, b1]
  rfl

theorem applyTxs_append (im : Img) (xs ys : List (List Nat × Nat)) :
    applyTxs im (xs ++ ys) = applyTxs (applyTxs im xs) ys := by
  simp [applyTxs, List.foldl_append]

theorem TxsOk_append_one (q : List Nat × Nat) :
    ∀ (xs : List (List Nat × Nat)) (im : Img),
    TxsOk im (xs ++ [q]) ↔ TxsOk im xs ∧
      ∃ g, (journal_create sbF (applyTxs im xs) q.1 q.2).1 = .ok g := by
  intro xs
  induction xs with
  | nil =>
    intro im
    simp [TxsOk, applyTxs]
  | cons p ps ih =>
    intro im
    rw [List.cons_append]
    show (_ ∧ TxsOk _ (ps ++ [q])) ↔ _
    rw [ih ((journal_create sbF im p.1 p.2).2)]
    have harg : applyTxs im (p :: ps)
        = applyTxs ((journal_create sbF im p.1 p.2).2) ps := rfl
    rw [harg]
    exact and_assoc.symm

theorem ContentAt_append_one (m : Img) (f s : Nat) (img : Img)
    (q : List Nat × Nat) :
    ∀ (xs : List (List Nat × Nat)) (pos : Nat),
    ContentAt m f s img pos (xs ++ [q]) ↔
      ContentAt m f s img pos xs ∧
      (∀ o, o < txLen f →
        img (4096 + (pos + xs.length * txLen f) + o)
          = txBytes m q.1 q.2 f s o) := by
  intro xs
  induction xs with
  | nil =>
    intro pos
    simp only [List.nil_append, ContentAt, List.length_nil, Nat.zero_mul,
      Nat.add_zero, and_true, true_and]
  | cons p ps ih =>
    intro pos
    rw [List.cons_append]
    show (_ ∧ ContentAt m f s img (pos + txLen f) (ps ++ [q])) ↔ _
    rw [ih (pos + txLen f)]
    simp only [List.length_cons]
    rw [show pos + txLen f + ps.length * txLen f
        = pos + (ps.length + 1) * txLen f by ring]
    exact and_assoc.symm

theorem ContentAt_congr_range (m : Img) (f s : Nat) (img img' : Img) :
    ∀ (ps : List (List Nat × Nat)) (pos : Nat),
    (∀ a, 4096 + pos ≤ a → a < 4096 + pos + ps.length * txLen f →
      img' a = img a) →
    ContentAt m f s img pos ps → ContentAt m f s img' pos ps := by
  intro ps
  induction ps with
  | nil => intro pos _ _; trivial
  | cons p ps ih =>
    intro pos hagree hc
    obtain ⟨h1, h2⟩ := hc
    simp only [List.length_cons] at hagree
    rw [show (ps.length + 1) * txLen f
        = ps.length * txLen f + txLen f by ring] at hagree
    refine ⟨?_, ?_⟩
    · intro o ho
      rw [hagree _ (by omega) (by omega)]
      exact h1 o ho
    · exact ih (pos + txLen f)
        (fun a ha1 ha2 => hagree a (by omega) (by omega)) h2

/-- Characterization of any run of successful creates from a base image
with a sane root pointer and a fresh journal: the creates only write the
journal region, every transaction allocates the same inode `f` and
directory slot `s` (both read from the unchanged metadata of the base
image), the journal header tracks `8 + k·txLen f`, the log stays within
capacity, and the logged bytes are exactly the serialized transactions
built from the base image's metadata. -/
theorem creates_char (img₀ : Img)
    (hroot : RootPtr img₀) (hfresh : FreshJournal img₀) :
    ∀ ts, TxsOk img₀ ts →
    (∀ a, a < 4096 ∨ 69632 ≤ a → applyTxs img₀ ts a = img₀ a)
    ∧ (ts ≠ [] → ∃ f s,
        1 ≤ f ∧ f < 64
        ∧ findFreeInode (fun o => img₀ (69632 + o)) = some f
        ∧ (∃ nm, find_free_dirent (fun o => img₀ (86016 + o)) nm
            = FfdResult.slot s)
        ∧ le32 (applyTxs img₀ ts) 4096 = JOURNAL_MAGIC
        ∧ le32 (applyTxs img₀ ts) 4100 = 8 + ts.length * txLen f
        ∧ 8 + ts.length * txLen f ≤ 65536
        ∧ ContentAt img₀ f s (applyTxs img₀ ts) 8 ts) := by
  have hD : szDR = 4104 := rfl
  have hR : szCR = 4 := rfl
  have hU : U32 = 4294967296 := rfl
  have hN16 : NEEDED = 16420 := rfl
  have hC : JCAP = 65536 := rfl
  have hjs : jstart sbF = 4096 := rfl
  have hjs4 : jstart sbF + 4 = 4100 := rfl
  have hAbm : blockAddr sbF.inode_bitmap = 69632 := rfl
  have hAb0 : blockAddr sbF.inode_start = 77824 := rfl
  have hA21 : blockAddr 21 = 86016 := rfl
  have hrdb0 : le32 (fun o => img₀ (77824 + o)) 8 = 21 := by
    rw [le32_shift]
    exact hroot
  intro ts
  induction ts using List.reverseRecOn with
  | nil =>
    intro _
    exact ⟨fun a _ => rfl, fun h => absurd rfl h⟩
  | append_singleton xs q ih =>
    intro hts
    rw [TxsOk_append_one] at hts
    obtain ⟨htso, g, hok⟩ := hts
    obtain ⟨hfr, hrest⟩ := ih htso
    obtain ⟨h27, hcapm, hf, s', hd, himg'⟩ :=
      journal_create_ok_shape sbF (applyTxs img₀ xs) q.1 q.2 g
        ((journal_create sbF (applyTxs img₀ xs) q.1 q.2).2) (by rw [← hok])
    have hbm : (fun o => applyTxs img₀ xs (69632 + o))
        = fun o => img₀ (69632 + o) := buf_eq_of_frame _ _ 69632 (by omega) hfr
    have hb0 : (fun o => applyTxs img₀ xs (77824 + o))
        = fun o => img₀ (77824 + o) := buf_eq_of_frame _ _ 77824 (by omega) hfr
    have hb1 : (fun o => applyTxs img₀ xs (81920 + o))
        = fun o => img₀ (81920 + o) := buf_eq_of_frame _ _ 81920 (by omega) hfr
    have hdb : (fun o => applyTxs img₀ xs (86016 + o))
        = fun o => img₀ (86016 + o) := buf_eq_of_frame _ _ 86016 (by omega) hfr
    rw [hAbm, hbm] at hf
    rw [hAb0, hb0, hrdb0, hA21, hdb] at hd
    have hfrange := findFreeInode_range _ g hf
    have htxle : txLen g ≤ 16420 := by
      rw [txLen]
      split_ifs <;> omega
    have htxge : 12316 ≤ txLen g := by
      rw [txLen]
      split_ifs <;> omega
    have trio : usedOf sbF (applyTxs img₀ xs) = 8 + xs.length * txLen g
        ∧ ContentAt img₀ g s' (applyTxs img₀ xs) 8 xs
        ∧ 8 + xs.length * txLen g ≤ 65536 := by
      by_cases hxs : xs = []
      · subst hxs
        refine ⟨?_, trivial, by simp⟩
        rw [show applyTxs img₀ [] = img₀ from rfl]
        simp only [List.length_nil, Nat.zero_mul, Nat.add_zero]
        rcases hfresh with hm | hu
        · rw [usedOf, if_pos (by rw [hjs]; exact hm)]
          rfl
        · by_cases hmm : le32 img₀ (jstart sbF) ≠ JOURNAL_MAGIC
          · rw [usedOf, if_pos hmm]
            rfl
          · rw [usedOf, if_neg hmm, hjs4]
            exact hu
      · obtain ⟨f, s0, _, _, hfi, ⟨nm, hffd⟩, hmagic, hused, hbound, hca⟩ :=
          hrest hxs
        have hfg : f = g := Option.some.inj (hfi.symm.trans hf)
        subst hfg
        have hs0 : s0 = s' :=
          find_free_dirent_slot_unique _ nm q.1 s0 s' hffd hd
        subst hs0
        refine ⟨?_, hca, hbound⟩
        rw [usedOf, if_neg (by rw [hjs, hmagic]; exact fun h => h rfl), hjs4]
        exact hused
    obtain ⟨husedc, hcontold, hboundold⟩ := trio
    have hu8 : szJH ≤ usedOf sbF (applyTxs img₀ xs) := by
      rw [husedc, show szJH = 8 from rfl]
      omega
    have hcap' : usedOf sbF (applyTxs img₀ xs) + NEEDED ≤ JCAP := by
      have hlt : (usedOf sbF (applyTxs img₀ xs) + NEEDED) % U32
          = usedOf sbF (applyTxs img₀ xs) + NEEDED := by
        apply Nat.mod_eq_of_lt
        rw [husedc, hN16, hU]
        omega
      rw [hlt] at hcapm
      omega
    have hroot' : le32 (applyTxs img₀ xs) 77832 = 21 := by
      have hsh := le32_shift (applyTxs img₀ xs) 77824 8
      rw [show (77824 : Nat) + 8 = 77832 from rfl] at hsh
      rw [← hsh, hb0, le32_shift]
      exact hroot
    obtain ⟨bfr, bhdr, btx⟩ :=
      createdImg_bytes (applyTxs img₀ xs) q.1 q.2 g s' hu8 hcap' hroot'
    have hN : applyTxs img₀ (xs ++ [q])
        = createdImg sbF (applyTxs img₀ xs) q.1 q.2 g s' := by
      rw [applyTxs_append]
      exact himg'
    have hcap2 : usedOf sbF (applyTxs img₀ xs) + txLen g ≤ 65536 := by
      rw [hN16, hC] at hcap'
      omega
    have hfrN : ∀ a, a < 4096 ∨ 69632 ≤ a →
        applyTxs img₀ (xs ++ [q]) a = img₀ a := by
      intro a ha
      rw [hN, bfr a (by
        rcases ha with ha | ha
        · exact Or.inl ha
        · right; right; omega)]
      exact hfr a ha
    refine ⟨hfrN, fun _ => ⟨g, s', hfrange.1, hfrange.2, hf, ⟨q.1, hd⟩,
      ?_, ?_, ?_, ?_⟩⟩
    · have hhd : ∀ o, o < 8 → applyTxs img₀ (xs ++ [q]) (4096 + o)
          = jhBuf JOURNAL_MAGIC (usedOf sbF (applyTxs img₀ xs) + txLen g) o := by
        intro o ho
        rw [hN]
        exact bhdr o ho
      have := le32_seg (applyTxs img₀ (xs ++ [q]))
        (jhBuf JOURNAL_MAGIC (usedOf sbF (applyTxs img₀ xs) + txLen g))
        4096 8 0 hhd (by omega)
      simpa [jhBuf_le32_magic] using this
    · have hhd : ∀ o, o < 8 → applyTxs img₀ (xs ++ [q]) (4096 + o)
          = jhBuf JOURNAL_MAGIC (usedOf sbF (applyTxs img₀ xs) + txLen g) o := by
        intro o ho
        rw [hN]
        exact bhdr o ho
      have hseg := le32_seg (applyTxs img₀ (xs ++ [q]))
        (jhBuf JOURNAL_MAGIC (usedOf sbF (applyTxs img₀ xs) + txLen g))
        4096 8 4 hhd (by omega)
      rw [show (4100 : Nat) = 4096 + 4 from rfl, hseg, jhBuf_le32_used,
        Nat.mod_eq_of_lt (by rw [hU]; omega), husedc,
        List.length_append, List.length_cons, List.length_nil]
      ring
    · rw [List.length_append, List.length_cons, List.length_nil]
      rw [husedc] at hcap2
      have : (xs.length + (0 + 1)) * txLen g
          = xs.length * txLen g + txLen g := by ring
      rw [this]
      omega
    · rw [ContentAt_append_one]
      refine ⟨?_, ?_⟩
      · refine ContentAt_congr_range img₀ g s' (applyTxs img₀ xs)
          (applyTxs img₀ (xs ++ [q])) xs 8 ?_ hcontold
        intro a ha1 ha2
        rw [hN]
        refine bfr a (Or.inr (Or.inl ⟨by omega, ?_⟩))
        rw [husedc]
        omega
      · intro o ho
        have := btx o ho
        rw [husedc] at this
        rw [show 4096 + (8 + xs.length * txLen g) + o
            = 4096 + (8 + xs.length * txLen g) + o from rfl]
        rw [hN]
        rw [this]
        exact congrFun (txBytes_congr (applyTxs img₀ xs) img₀ q.1 q.2 g s'
          hbm hb0 hb1 hdb) o

theorem le16_congr2 (g h : Nat → Nat) (a b : Nat)
    (e1 : g a = h b) (e2 : g (a + 1) = h (b + 1)) : le16 g a = le16 h b := by
  simp only [le16, e1, e2]

theorem le32_congr4 (g h : Nat → Nat) (a b : Nat)
    (e1 : g a = h b) (e2 : g (a + 1) = h (b + 1))
    (e3 : g (a + 2) = h (b + 2)) (e4 : g (a + 3) = h (b + 3)) :
    le32 g a = le32 h b := by
  simp only [le32, e1, e2, e3, e4]

/-- Bytes of the first inode-table-block buffer that neither the root
size update nor the new inode record touches. -/
theorem txB0_out (m : Img) (fn : List Nat) (now f s o : Nat)
    (hns : o < 4 ∨ 8 ≤ o)
    (hni : ¬ INODES_PER_BLOCK ≤ f → o < 128 * f ∨ 128 * f + 48 ≤ o) :
    txB0 m fn now f s o = m (77824 + o) := by
  simp only [txB0]
  rcases hgh : get_highest_dirent (updDirent (fun o => m (86016 + o)) s f fn)
      with _ | hh
  · simp only
    by_cases hb : INODES_PER_BLOCK ≤ f
    · rw [if_pos hb]
    · rw [if_neg hb, updInode_out _ _ _ _ (hni hb)]
  · simp only
    rw [updRootSize_out _ _ _ hns]
    by_cases hb : INODES_PER_BLOCK ≤ f
    · rw [if_pos hb]
    · rw [if_neg hb, updInode_out _ _ _ _ (hni hb)]

/-- The type field of the freshly populated inode in the first
inode-table block. -/
theorem txB0_le16_type_self (m : Img) (fn : List Nat) (now f s : Nat)
    (hf1 : 1 ≤ f) (hf32 : ¬ INODES_PER_BLOCK ≤ f) :
    le16 (txB0 m fn now f s) (128 * f) = INODE_FILE := by
  have hIP : INODES_PER_BLOCK = 32 := rfl
  rw [hIP] at hf32
  have key : ∀ o, 128 * f ≤ o → o ≤ 128 * f + 1 →
      txB0 m fn now f s o
        = updInode (fun o => m (77824 + o)) f now o := by
    intro o h1 h2
    simp only [txB0]
    rcases hgh : get_highest_dirent (updDirent (fun o => m (86016 + o)) s f fn)
        with _ | hh
    · simp only
      rw [if_neg (by rw [hIP]; omega)]
    · simp only
      rw [updRootSize_out _ _ _ (by omega), if_neg (by rw [hIP]; omega)]
  rw [le16_congr2 (txB0 m fn now f s)
    (updInode (fun o => m (77824 + o)) f now) (128 * f) (128 * f)
    (key _ (by omega) (by omega)) (key _ (by omega) (by omega))]
  exact updInode_le16_type _ _ _

theorem txB1_le16_type_self (m : Img) (now f : Nat) :
    le16 (txB1 m now f) (128 * (f - INODES_PER_BLOCK)) = INODE_FILE := by
  rw [txB1]
  exact updInode_le16_type _ _ _

theorem txB1_out (m : Img) (now f o : Nat)
    (h : o < 128 * (f - INODES_PER_BLOCK)
      ∨ 128 * (f - INODES_PER_BLOCK) + 48 ≤ o) :
    txB1 m now f o = m (81920 + o) := by
  rw [txB1]
  exact updInode_out _ _ _ _ h

theorem setBitBuf_self_bit (bm : Nat → Nat) (f : Nat) :
    Nat.testBit (setBitBuf bm f (f / 8)) (f % 8) = true := by
  rw [setBitBuf, if_pos rfl]
  simp [Nat.testBit_or, Nat.shiftLeft_eq, Nat.testBit_two_pow_self]

theorem setBitBuf_other_bit (bm : Nat → Nat) (f i : Nat) (hne : i ≠ f) :
    Nat.testBit (setBitBuf bm f (i / 8)) (i % 8)
      = Nat.testBit (bm (i / 8)) (i % 8) := by
  by_cases hbyte : i / 8 = f / 8
  · rw [setBitBuf, if_pos hbyte, hbyte]
    have hbit : i % 8 ≠ f % 8 := by omega
    simp [Nat.testBit_or, Nat.shiftLeft_eq,
      Nat.testBit_two_pow_of_ne (fun h => hbit h.symm)]
  · rw [setBitBuf, if_neg hbyte]

/-- `journal_install` run at the end of any successful create sequence
re-establishes the bitmap/type invariant, keeps the root-directory
pointer, and leaves a freshly reset journal. -/
theorem install_char (img₀ : Img)
    (hinv : InvBT img₀) (hroot : RootPtr img₀) (hfresh : FreshJournal img₀)
    (ts : List (List Nat × Nat)) (hts : TxsOk img₀ ts) :
    InvBT (journal_install sbF (applyTxs img₀ ts)).2
    ∧ RootPtr (journal_install sbF (applyTxs img₀ ts)).2
    ∧ FreshJournal (journal_install sbF (applyTxs img₀ ts)).2 := by
  have hD : szDR = 4104 := rfl
  have hR : szCR = 4 := rfl
  have hH : szJH = 8 := rfl
  have hU : U32 = 4294967296 := rfl
  have hIP : INODES_PER_BLOCK = 32 := rfl
  have hjs : jstart sbF = 4096 := rfl
  have hjs4 : jstart sbF + 4 = 4100 := rfl
  obtain ⟨hfr, hrest⟩ := creates_char img₀ hroot hfresh ts hts
  by_cases hts0 : ts = []
  · subst hts0
    have hid : (journal_install sbF (applyTxs img₀ [])).2 = img₀ := by
      rw [show applyTxs img₀ [] = img₀ from rfl]
      rcases hfresh with hm | hu
      · simp only [journal_install]
        rw [if_pos (show le32 img₀ (jstart sbF) ≠ JOURNAL_MAGIC from by
          rw [hjs]; exact hm)]
      · by_cases hmm : le32 img₀ (jstart sbF) ≠ JOURNAL_MAGIC
        · simp only [journal_install]
          rw [if_pos hmm]
        · simp only [journal_install]
          rw [if_neg hmm, if_pos (show le32 img₀ (jstart sbF + 4) ≤ szJH from by
            rw [hjs4, hu])]
    rw [hid]
    exact ⟨hinv, hroot, hfresh⟩
  · obtain ⟨f, s, hf1, hf64, hfi, ⟨nm, hffd⟩, hmagic, hused, hbound, hca⟩ :=
      hrest hts0
    have hk1 : 0 < ts.length := List.length_pos.mpr hts0
    have htxge : 12316 ≤ txLen f := by
      rw [txLen]
      split_ifs <;> omega
    have hkt : txLen f ≤ ts.length * txLen f := by
      have h := Nat.mul_le_mul_right (txLen f) hk1
      simpa using h
    have hnr1 : nRecs f + 1 ≤ txLen f := by
      rw [nRecs, txLen]
      split_ifs <;> omega
    have hknr : ts.length * (nRecs f + 1) ≤ ts.length * txLen f :=
      Nat.mul_le_mul_left _ hnr1
    have hfuel : 8 + ts.length * txLen f
        = (8 + ts.length * txLen f - 1 - ts.length * (nRecs f + 1)) + 1
          + ts.length * (nRecs f + 1) := by
      omega
    have hused2 : (8 + ts.length * txLen f - 1 - ts.length * (nRecs f + 1)) + 1
          + ts.length * (nRecs f + 1) = szJH + ts.length * txLen f := by
      rw [hH]
      omega
    have hscan2 : scanRecs (fun o => applyTxs img₀ ts (4096 + o))
        ((8 + ts.length * txLen f - 1 - ts.length * (nRecs f + 1)) + 1
          + ts.length * (nRecs f + 1))
        ((8 + ts.length * txLen f - 1 - ts.length * (nRecs f + 1)) + 1
          + ts.length * (nRecs f + 1)) szJH [] [] 0
        = (ts.length,
           wcat (fun o => applyTxs img₀ ts (4096 + o)) f szJH ts) := by
      rw [scan_wcat img₀ (applyTxs img₀ ts) f s ts szJH
        (8 + ts.length * txLen f - 1 - ts.length * (nRecs f + 1)) [] 0
        ((8 + ts.length * txLen f - 1 - ts.length * (nRecs f + 1)) + 1
          + ts.length * (nRecs f + 1)) hca hused2]
      simp
    have hinst : journal_install sbF (applyTxs img₀ ts)
        = (ts.length, writeBytes (applyWrites (applyTxs img₀ ts)
            (wcat (fun o => applyTxs img₀ ts (4096 + o)) f szJH ts))
            4096 szJH (jhBuf JOURNAL_MAGIC szJH)) := by
      have hwne : ¬ le32 (applyTxs img₀ ts) (jstart sbF) ≠ JOURNAL_MAGIC := by
        rw [hjs, hmagic]
        exact fun h => h rfl
      have hgt : ¬ le32 (applyTxs img₀ ts) (jstart sbF + 4) ≤ szJH := by
        rw [hjs4, hused, hH]
        omega
      simp only [journal_install]
      rw [if_neg hwne, if_neg hgt, hjs4, hjs, hused, hfuel, hscan2]
    have hout : ∀ a, 4104 ≤ a → (journal_install sbF (applyTxs img₀ ts)).2 a
        = applyWrites (applyTxs img₀ ts)
            (wcat (fun o => applyTxs img₀ ts (4096 + o)) f szJH ts) a := by
      intro a ha
      rw [hinst]
      exact writeBytes_out _ _ _ _ a (by rw [hH]; omega)
    obtain ⟨awfr, awvals⟩ := applyWrites_wcat img₀ (applyTxs img₀ ts) f s ts
      szJH (applyTxs img₀ ts) hca
    obtain ⟨q, hq⟩ : ∃ q, ts.getLast? = some q :=
      ⟨ts.getLast hts0, List.getLast?_eq_getLast ts hts0⟩
    have hv := awvals q hq
    have hbmB : ∀ x, x < 4096 →
        (journal_install sbF (applyTxs img₀ ts)).2 (69632 + x)
          = txBm img₀ f x := by
      intro x hx
      rw [hout _ (by omega)]
      exact (hv x hx).1
    have hb0B : ∀ x, x < 4096 →
        (journal_install sbF (applyTxs img₀ ts)).2 (77824 + x)
          = txB0 img₀ q.1 q.2 f s x := by
      intro x hx
      rw [hout _ (by omega)]
      exact (hv x hx).2.1
    have hb1B : INODES_PER_BLOCK ≤ f → ∀ x, x < 4096 →
        (journal_install sbF (applyTxs img₀ ts)).2 (81920 + x)
          = txB1 img₀ q.2 f x := by
      intro hb x hx
      rw [hout _ (by omega)]
      exact (hv x hx).2.2.2 hb
    have hb1Out : ¬ INODES_PER_BLOCK ≤ f → ∀ x, x < 4096 →
        (journal_install sbF (applyTxs img₀ ts)).2 (81920 + x)
          = img₀ (81920 + x) := by
      intro hb x hx
      rw [hout _ (by omega),
        awfr _ (Or.inr (Or.inr (Or.inr ⟨hb, by omega, by omega⟩)))]
      exact hfr _ (by omega)
    refine ⟨?_, ?_, ?_⟩
    · intro i hi
      have ebit : Nat.testBit
          ((journal_install sbF (applyTxs img₀ ts)).2 (69632 + i / 8)) (i % 8)
          = Nat.testBit (setBitBuf (fun o => img₀ (69632 + o)) f (i / 8))
              (i % 8) := by
        rw [hbmB (i / 8) (by omega),
          show txBm img₀ f = setBitBuf (fun o => img₀ (69632 + o)) f from rfl]
      by_cases hif : i = f
      · subst hif
        refine iff_of_true ?_ ?_
        · rw [ebit]
          exact setBitBuf_self_bit _ _
        · by_cases hb : INODES_PER_BLOCK ≤ i
          · have hia : inodeAddr i = 81920 + 128 * (i - INODES_PER_BLOCK) := by
              rw [inodeAddr, if_neg (by rw [hIP] at hb ⊢; omega)]
            have htype : le16 ((journal_install sbF (applyTxs img₀ ts)).2)
                (inodeAddr i) = INODE_FILE := by
              rw [hia]
              rw [le16_congr2 ((journal_install sbF (applyTxs img₀ ts)).2)
                (txB1 img₀ q.2 i) (81920 + 128 * (i - INODES_PER_BLOCK))
                (128 * (i - INODES_PER_BLOCK))
                (hb1B hb _ (by rw [hIP] at hb; omega))
                (by
                  rw [show 81920 + 128 * (i - INODES_PER_BLOCK) + 1
                      = 81920 + (128 * (i - INODES_PER_BLOCK) + 1) by omega]
                  exact hb1B hb _ (by rw [hIP] at hb; omega))]
              exact txB1_le16_type_self _ _ _
            rw [htype]
            exact fun h => absurd h (by rw [show INODE_FILE = 1 from rfl,
              show INODE_FREE = 0 from rfl]; omega)
          · have hia : inodeAddr i = 77824 + 128 * i := by
              rw [inodeAddr, if_pos (by rw [hIP] at hb ⊢; omega)]
            have htype : le16 ((journal_install sbF (applyTxs img₀ ts)).2)
                (inodeAddr i) = INODE_FILE := by
              rw [hia]
              rw [le16_congr2 ((journal_install sbF (applyTxs img₀ ts)).2)
                (txB0 img₀ q.1 q.2 i s) (77824 + 128 * i) (128 * i)
                (hb0B _ (by rw [hIP] at hb; omega))
                (by
                  rw [show 77824 + 128 * i + 1 = 77824 + (128 * i + 1) by omega]
                  exact hb0B _ (by rw [hIP] at hb; omega))]
              exact txB0_le16_type_self _ _ _ _ _ hf1 hb
            rw [htype]
            exact fun h => absurd h (by rw [show INODE_FILE = 1 from rfl,
              show INODE_FREE = 0 from rfl]; omega)
      · have ebit2 : Nat.testBit
            ((journal_install sbF (applyTxs img₀ ts)).2 (69632 + i / 8))
            (i % 8) = Nat.testBit (img₀ (69632 + i / 8)) (i % 8) := by
          rw [ebit, setBitBuf_other_bit _ _ _ hif]
        have etype : le16 ((journal_install sbF (applyTxs img₀ ts)).2)
            (inodeAddr i) = le16 img₀ (inodeAddr i) := by
          by_cases hi32 : i < INODES_PER_BLOCK
          · have hia : inodeAddr i = 77824 + 128 * i := by
              rw [inodeAddr, if_pos hi32]
            rw [hIP] at hi32
            rw [hia]
            rw [le16_congr2 ((journal_install sbF (applyTxs img₀ ts)).2)
              (txB0 img₀ q.1 q.2 f s) (77824 + 128 * i) (128 * i)
              (hb0B _ (by omega))
              (by
                rw [show 77824 + 128 * i + 1 = 77824 + (128 * i + 1) by omega]
                exact hb0B _ (by omega))]
            refine le16_congr2 _ _ _ _ ?_ ?_
            · exact txB0_out img₀ q.1 q.2 f s (128 * i) (by omega)
                (fun hb => by rw [hIP] at hb; omega)
            · exact txB0_out img₀ q.1 q.2 f s (128 * i + 1) (by omega)
                (fun hb => by rw [hIP] at hb; omega)
          · have hia : inodeAddr i = 81920 + 128 * (i - INODES_PER_BLOCK) := by
              rw [inodeAddr, if_neg hi32]
            rw [hIP] at hi32
            rw [hia, hIP]
            by_cases hb : INODES_PER_BLOCK ≤ f
            · rw [le16_congr2 ((journal_install sbF (applyTxs img₀ ts)).2)
                (txB1 img₀ q.2 f) (81920 + 128 * (i - 32)) (128 * (i - 32))
                (hb1B hb _ (by omega))
                (by
                  rw [show 81920 + 128 * (i - 32) + 1
                      = 81920 + (128 * (i - 32) + 1) by omega]
                  exact hb1B hb _ (by omega))]
              rw [hIP] at hb
              refine le16_congr2 _ _ _ _ ?_ ?_
              · exact txB1_out img₀ q.2 f (128 * (i - 32))
                  (by rw [hIP]; omega)
              · exact txB1_out img₀ q.2 f (128 * (i - 32) + 1)
                  (by rw [hIP]; omega)
            · refine le16_congr2 _ _ _ _ ?_ ?_
              · exact hb1Out hb _ (by omega)
              · rw [show 81920 + 128 * (i - 32) + 1
                    = 81920 + (128 * (i - 32) + 1) by omega]
                exact hb1Out hb _ (by omega)
        rw [ebit2, etype]
        exact hinv i hi
    · have e1 := (hb0B 8 (by omega)).trans
        (txB0_out img₀ q.1 q.2 f s 8 (by omega)
          (fun hb => Or.inl (by omega)))
      have e2 := (hb0B 9 (by omega)).trans
        (txB0_out img₀ q.1 q.2 f s 9 (by omega)
          (fun hb => Or.inl (by omega)))
      have e3 := (hb0B 10 (by omega)).trans
        (txB0_out img₀ q.1 q.2 f s 10 (by omega)
          (fun hb => Or.inl (by omega)))
      have e4 := (hb0B 11 (by omega)).trans
        (txB0_out img₀ q.1 q.2 f s 11 (by omega)
          (fun hb => Or.inl (by omega)))
      have := le32_congr4 ((journal_install sbF (applyTxs img₀ ts)).2) img₀
        77832 77832 e1 e2 e3 e4
      rw [RootPtr, this]
      exact hroot
    · right
      rw [hinst, show (4100 : Nat) = 4096 + 4 from rfl]
      have := le32_writeBytes_jhBuf_used (applyWrites (applyTxs img₀ ts)
        (wcat (fun o => applyTxs img₀ ts (4096 + o)) f szJH ts))
        4096 JOURNAL_MAGIC szJH
      rw [this]
      rfl

/-- Reachable states: some base image satisfying the invariant plus a
(possibly empty) run of successful creates logged on top of it. -/
def Reach (img : Img) : Prop :=
  ∃ img₀ ts, InvBT img₀ ∧ RootPtr img₀ ∧ FreshJournal img₀
    ∧ TxsOk img₀ ts ∧ img = applyTxs img₀ ts

theorem Reach_step (img : Img) (h : Reach img) (c : Cmd) :
    Reach (step img c) := by
  obtain ⟨img₀, ts, hinv, hroot, hfresh, hts, rfl⟩ := h
  cases c with
  | create fn now =>
    show Reach (journal_create sbF (applyTxs img₀ ts) fn now).2
    rcases journal_create_snd_or_ok sbF (applyTxs img₀ ts) fn now with
      ⟨g, hok⟩ | hsame
    · refine ⟨img₀, ts ++ [(fn, now)], hinv, hroot, hfresh, ?_, ?_⟩
      · rw [TxsOk_append_one]
        exact ⟨hts, g, hok⟩
      · rw [applyTxs_append]
        rfl
    · rw [hsame]
      exact ⟨img₀, ts, hinv, hroot, hfresh, hts, rfl⟩
  | install =>
    show Reach (journal_install sbF (applyTxs img₀ ts)).2
    obtain ⟨hinv', hroot', hfresh'⟩ := install_char img₀ hinv hroot hfresh ts hts
    exact ⟨(journal_install sbF (applyTxs img₀ ts)).2, [], hinv', hroot',
      hfresh', trivial, rfl⟩

theorem Reach_inv (img : Img) (h : Reach img) : InvBT img := by
  obtain ⟨img₀, ts, hinv, hroot, hfresh, hts, rfl⟩ := h
  obtain ⟨hfr, _⟩ := creates_char img₀ hroot hfresh ts hts
  intro i hi
  have e1 : applyTxs img₀ ts (69632 + i / 8) = img₀ (69632 + i / 8) :=
    hfr _ (by omega)
  have hge : 69632 ≤ inodeAddr i := by
    rw [inodeAddr]
    split_ifs <;> omega
  have e2 : le16 (applyTxs img₀ ts) (inodeAddr i) = le16 img₀ (inodeAddr i) := by
    refine le16_congr2 _ _ _ _ ?_ ?_
    · exact hfr _ (Or.inr hge)
    · exact hfr _ (Or.inr (by omega))
  rw [e1, e2]
  exact hinv i hi

theorem Reach_runCmds (cs : List Cmd) :
    ∀ img, Reach img → Reach (runCmds img cs) := by
  induction cs with
  | nil => intro img h; exact h
  | cons c cs ih =>
    intro img h
    exact ih (step img c) (Reach_step img h c)

/-- **C9.** Starting from a formatted image whose inode bitmap agrees
with the inode type fields (bit `i` set iff inode `i`'s type is not
free) — and which, being freshly formatted, has the root inode's first
direct pointer naming the root directory block and an
uninitialized-or-reset journal — every sequence of `create` and
`install` commands preserves the agreement: in the resulting on-disk
state, for every inode index `i < 64`, inode-bitmap bit `i` is set iff
inode `i`'s type field is not `INODE_FREE`.  (Creates touch only the
journal region, and each install rewrites bitmap and inode table
together from the same committed transaction.) -/
theorem C9_invariant_preserved (img : Img)
    (hinv : InvBT img) (hroot : RootPtr img) (hfresh : FreshJournal img)
    (cs : List Cmd) : InvBT (runCmds img cs) :=
  Reach_inv _ (Reach_runCmds cs img ⟨img, [], hinv, hroot, hfresh, trivial, rfl⟩)

/-- Witness for C9: the freshly formatted image satisfies all three
hypotheses (kernel-evaluated), and the theorem applies to the command
sequence `create "a"; install`. -/
theorem C9_witness :
    (InvBT freshImg ∧ RootPtr freshImg ∧ FreshJournal freshImg)
    ∧ InvBT (runCmds freshImg [Cmd.create [97] 10, Cmd.install]) :=
  ⟨⟨by unfold InvBT; decide, by unfold RootPtr; decide,
    by unfold FreshJournal; decide⟩,
   C9_invariant_preserved freshImg (by unfold InvBT; decide)
     (by unfold RootPtr; decide) (by unfold FreshJournal; decide)
     [Cmd.create [97] 10, Cmd.install]⟩

end VsfsJournal